import Mathlib

/-!
# A shallow embedding of `src/malloc.c`

The allocator of `src/malloc.c` manages one region of raw memory obtained
with `sbrk`.  Every block starts with a `metadata_t` header that lives *in*
that memory, so the embedding keeps the memory as bytes and reads and writes
the header fields at their byte offsets.

Conventions of the embedding (LP64, little endian, as on x86-64 Linux, the
platform `sbrk` belongs to):

* `sizeof(metadata_t) = 24`; the fields sit at offsets
  `size : 0..3` (`unsigned int`), `is_used : 4` (`unsigned char`),
  `next_free : 8..15`, `next : 16..23` (pointers), bytes `5..7` are padding;
* a pointer is a natural number, `NULL` is `0`;
* memory is a total function from addresses to bytes; memory handed out by
  `sbrk` for the first time reads as zero (the kernel zero-fills it), which
  the initial state `init` models by an all-zero memory;
* `sbrk` always succeeds (the code never checks for its failure);
* the `while` loops take a fuel argument and return `none` when it runs out: the links
  stored in memory may form a cycle.  Fuel is only used by the loops, so a call that
  takes a path without a loop returns for every fuel.

The theorems about one concrete run evaluate the functions in the kernel; the theorems
about all sizes and all bases execute the code symbolically, reading each header field
back through the stores made before.
-/

namespace Malloc

/-! ## Bytes -/

/-- Byte-addressed memory. -/
abbrev Mem := Nat → Nat

/-- Little-endian read of `k` bytes at address `a`. -/
def rdLE (m : Mem) : Nat → Nat → Nat
  | _, 0 => 0
  | a, k + 1 => m a % 256 + 256 * rdLE m (a + 1) k

/-- Little-endian write of the low `k` bytes of `v` at address `a`. -/
def wrLE : Mem → Nat → Nat → Nat → Mem
  | m, _, _, 0 => m
  | m, a, v, k + 1 => wrLE (fun x => if x = a then v % 256 else m x) (a + 1) (v / 256) k

/-- Same as `memcpy(dst, src, n)` for regions that do not overlap. -/
def memcpy (m : Mem) (dst src n : Nat) : Mem :=
  fun x => if dst ≤ x ∧ x < dst + n then m (src + (x - dst)) else m x

/-- Same as `memset(dst, c, n)`. -/
def memset (m : Mem) (dst c n : Nat) : Mem :=
  fun x => if dst ≤ x ∧ x < dst + n then c % 256 else m x

/-! ## The header `metadata_t` -/

/-- The value of `sizeof(metadata_t)`. -/
def sizeof_metadata_t : Nat := 24

/-- Field `size` of the header at `h`. -/
def get_size (m : Mem) (h : Nat) : Nat := rdLE m h 4
/-- Field `is_used` of the header at `h`. -/
def get_is_used (m : Mem) (h : Nat) : Nat := rdLE m (h + 4) 1
/-- Field `next_free` of the header at `h`. -/
def get_next_free (m : Mem) (h : Nat) : Nat := rdLE m (h + 8) 8
/-- Field `next` of the header at `h`. -/
def get_next (m : Mem) (h : Nat) : Nat := rdLE m (h + 16) 8

/-- Assignment to field `size` (an `unsigned int`: the value is truncated to 32 bits). -/
def set_size (m : Mem) (h v : Nat) : Mem := wrLE m h v 4
/-- Assignment to field `is_used` (an `unsigned char`). -/
def set_is_used (m : Mem) (h v : Nat) : Mem := wrLE m (h + 4) v 1
/-- Assignment to field `next_free`. -/
def set_next_free (m : Mem) (h v : Nat) : Mem := wrLE m (h + 8) v 8
/-- Assignment to field `next`. -/
def set_next (m : Mem) (h v : Nat) : Mem := wrLE m (h + 16) v 8

/-! ## The process state -/

/-- The globals of `malloc.c`, the program break and the memory. -/
structure State where
  mem : Mem
  brk : Nat
  start_of_heap : Nat
  last_meta : Nat
  free_start : Nat

/-- A fresh heap: nothing allocated yet, the break at `base`. -/
def init (base : Nat) : State :=
  { mem := fun _ => 0, brk := base, start_of_heap := 0, last_meta := 0, free_start := 0 }

/-- The call `sbrk(inc)`: the argument is an `intptr_t`, so a value of `2^63` or more
moves the break down.  Returns the previous break. -/
def sbrk (s : State) (inc : Nat) : State × Nat :=
  let i := inc % 2 ^ 64
  ({ s with brk := if i < 2 ^ 63 then s.brk + i else s.brk - (2 ^ 64 - i) }, s.brk)

/-- The `size_t` value an `int` variable compares as after it was assigned the
unsigned value `x`: the low 32 bits, sign-extended to 64 bits. -/
def int_as_size_t (x : Nat) : Nat :=
  if x % 2 ^ 32 < 2 ^ 31 then x % 2 ^ 32 else x % 2 ^ 32 + (2 ^ 64 - 2 ^ 32)

/-! ## `malloc` -/

/-- The first-fit loop of `malloc` (lines 138-168), up to the point where it either
finds a block (`curr ≠ 0`) or runs off the list (`curr = 0`).  It returns
`(curr, prev, prev_free)`; the loop itself does not write to memory. -/
def malloc_search (size : Nat) (m : Mem) : Nat → Nat → Nat → Nat → Option (Nat × Nat × Nat)
  | 0, _, _, _ => none
  | fuel + 1, curr, prev, prev_free =>
    if curr = 0 then some (curr, prev, prev_free)
    else if get_size m curr ≥ size then some (curr, prev, prev_free)
    else malloc_search size m fuel (get_next_free m curr) curr prev

/-- Lines 141-163: the block `curr` found by first fit is taken, and split when the
remainder is larger than a header. -/
def malloc_take (s : State) (size curr prev : Nat) : State × Nat :=
  let m := set_is_used s.mem curr 1
  let ptr := curr + sizeof_metadata_t
  let remaining_size := int_as_size_t (get_size m curr - size)
  if remaining_size > sizeof_metadata_t then
    let new_block := curr + sizeof_metadata_t + size
    let m := set_is_used m new_block 0
    let m := set_size m new_block (remaining_size - sizeof_metadata_t)
    let m := set_next m new_block (get_next m curr)
    let m := set_next_free m new_block (get_next_free m curr)
    let m := set_next m curr new_block
    let m := set_next_free m curr 0
    let m := set_size m curr size
    if prev ≠ 0 then
      ({ s with mem := set_next_free m prev new_block }, ptr)
    else
      ({ s with mem := m, free_start := new_block }, ptr)
  else
    let m := if prev ≠ 0 then set_next_free m prev (get_next_free m curr) else m
    let m := set_next_free m curr 0
    ({ s with mem := m }, ptr)

/-- Lines 170-181: no free block fits, the last block of the free list is grown. -/
def malloc_extend (s : State) (size prev prev_free : Nat) : State × Nat :=
  let m := set_is_used s.mem prev 1
  let prev_size := int_as_size_t (get_size m prev)
  let (s1, ptr) := sbrk { s with mem := m } ((size + (2 ^ 64 - prev_size)) % 2 ^ 64)
  let ptr := ptr - get_size s1.mem prev
  let m := set_size s1.mem prev size
  if prev_free = 0 then
    ({ s1 with mem := m, free_start := 0 }, ptr)
  else
    ({ s1 with mem := set_next_free m prev_free 0 }, ptr)

/-- Lines 115-122: the sentinel header is created on the first call. -/
def malloc_init (s : State) : State :=
  if s.start_of_heap = 0 then
    let (s1, start) := sbrk s sizeof_metadata_t
    let m := set_is_used s1.mem start 1
    let m := set_size m start 0
    let m := set_next m start 0
    { s1 with mem := m, start_of_heap := start, last_meta := start }
  else s

/-- Lines 124-133: the free list is empty, a new block is put at the end of the heap. -/
def malloc_fresh (s : State) (size : Nat) : State × Nat :=
  let (s1, meta) := sbrk s sizeof_metadata_t
  let m := set_size s1.mem meta size
  let m := set_is_used m meta 1
  let (s2, ptr) := sbrk { s1 with mem := m } size
  let last := s2.last_meta
  ({ s2 with mem := set_next s2.mem last meta, last_meta := meta }, ptr)

/-- Lines 140-184 after the loop has stopped with `(curr, prev, prev_free)`: a block was
found (`curr ≠ 0`), or the list ended and its last block `prev` is grown, or `NULL`. -/
def malloc_finish (s : State) (size : Nat) : Nat × Nat × Nat → State × Nat
  | (curr, prev, prev_free) =>
    if curr ≠ 0 then malloc_take s size curr prev
    else if prev ≠ 0 then malloc_extend s size prev prev_free
    else (s, 0)

/-- The function `malloc(size)`; `none` when the first-fit loop runs out of fuel. -/
def malloc (fuel : Nat) (s : State) (size : Nat) : Option (State × Nat) :=
  if size = 0 then some (s, 0)
  else
    let s := malloc_init s
    if s.free_start = 0 then some (malloc_fresh s size)
    else (malloc_search size s.mem fuel s.free_start 0 0).map (malloc_finish s size)

/-! ## `free` -/

/-- The three assignments that merge block `b` into the block `a` before it
(lines 221-223, 229-231 and 235-237). -/
def merge (m : Mem) (a b : Nat) : Mem :=
  let m := set_size m a (get_size m a + (sizeof_metadata_t + get_size m b))
  let m := set_next m a (get_next m b)
  set_next_free m a (get_next_free m b)

/-- The loop of `free` (lines 216-227); returns the memory and `(curr, prev, prev_free)`
at loop exit. -/
def free_loop (meta : Nat) : Nat → Mem → Nat → Nat → Nat → Option (Mem × Nat × Nat × Nat)
  | 0, _, _, _, _ => none
  | fuel + 1, m, curr, prev, prev_free =>
    if curr ≠ 0 ∧ curr ≠ meta then
      let prev_free := if get_is_used m curr = 0 then curr else prev_free
      let m := if prev ≠ 0 ∧ get_is_used m prev = 0 ∧ get_is_used m curr = 0
        then merge m prev curr else m
      free_loop meta fuel m (get_next m curr) curr prev_free
    else some (m, curr, prev, prev_free)

/-- Lines 228-239: the merges tried after the loop. -/
def free_merge (m : Mem) (curr prev : Nat) : Mem :=
  if prev ≠ 0 ∧ curr ≠ 0 ∧ get_is_used m prev = 0 ∧ get_is_used m curr = 0 then
    merge m prev curr
  else if curr ≠ 0 ∧ get_is_used m curr = 0 then
    let next := get_next m curr
    if next ≠ 0 ∧ get_is_used m next = 0 then merge m curr next else m
  else m

/-- Lines 228-244 after the loop has stopped with `(curr, prev, prev_free)`: the merges,
then the block `meta` is linked into the free list. -/
def free_finish (s : State) (meta : Nat) : Mem × Nat × Nat × Nat → State
  | (m, curr, prev, prev_free) =>
    let m := free_merge m curr prev
    if prev_free = 0 then { s with mem := m, free_start := meta }
    else { s with mem := set_next_free m prev_free meta }

/-- The function `free(ptr)`; `none` when the loop over the chain runs out of fuel. -/
def free (fuel : Nat) (s : State) (ptr : Nat) : Option State :=
  if ptr = 0 then some s
  else
    let meta := ptr - sizeof_metadata_t
    if get_is_used s.mem meta = 0 then some s
    else
      let m := set_is_used s.mem meta 0
      if s.free_start = 0 then some { s with mem := m, free_start := meta }
      else (free_loop meta fuel m (get_next m s.start_of_heap) 0 0).map (free_finish s meta)

/-! ## `realloc` -/

/-- Lines 302-305 of `realloc` after `malloc(size)` has returned `(s1, new_ptr)`: the
old payload is copied and the old block freed. -/
def realloc_move (fuel : Nat) (ptr : Nat) : State × Nat → Option (State × Nat)
  | (s1, new_ptr) =>
    let meta := ptr - sizeof_metadata_t
    let s2 := { s1 with mem := memcpy s1.mem new_ptr ptr (get_size s1.mem meta) }
    (free fuel s2 ptr).map (fun s3 => (s3, new_ptr))

/-- The function `realloc(ptr, size)`. -/
def realloc (fuel : Nat) (s : State) (ptr size : Nat) : Option (State × Nat) :=
  if ptr = 0 then malloc fuel s size
  else if size = 0 then (free fuel s ptr).map (fun s1 => (s1, 0))
  else
    let meta := ptr - sizeof_metadata_t
    if get_size s.mem meta ≥ size then some (s, ptr)
    else (malloc fuel s size).bind (realloc_move fuel ptr)

/-! ## `calloc` -/

/-- The function `calloc(num, size)`: the product is stored in an `int n`, and `n` is what
`malloc` and `memset` receive. -/
def calloc (fuel : Nat) (s : State) (num size : Nat) : Option (State × Nat) :=
  let n := int_as_size_t (num * size % 2 ^ 64)
  (malloc fuel s n).map fun r =>
    if r.2 ≠ 0 then ({ r.1 with mem := memset r.1.mem r.2 0 n }, r.2) else r

/-! ## The diagnostic walks -/

/-- The loop of `print_heap` (lines 30-33): the `(header, size, is_used)` triples
met by stepping from a header at `h` to `h + size + sizeof(metadata_t)`. -/
def print_heap_loop (m : Mem) (endOfHeap : Nat) : Nat → Nat → Option (List (Nat × Nat × Nat))
  | 0, _ => none
  | fuel + 1, curMeta =>
    if curMeta < endOfHeap then
      (print_heap_loop m endOfHeap fuel (curMeta + get_size m curMeta + sizeof_metadata_t)).map
        (fun l => (curMeta, get_size m curMeta, get_is_used m curMeta) :: l)
    else some []

/-- The listing of `print_heap`. -/
def print_heap (fuel : Nat) (s : State) : Option (List (Nat × Nat × Nat)) :=
  print_heap_loop s.mem s.brk fuel s.start_of_heap

/-- The loop of `print_next` (lines 41-44): the triples met by following `next`. -/
def print_next_loop (m : Mem) : Nat → Nat → Option (List (Nat × Nat × Nat))
  | 0, _ => none
  | fuel + 1, curMeta =>
    if curMeta ≠ 0 then
      (print_next_loop m fuel (get_next m curMeta)).map
        (fun l => (curMeta, get_size m curMeta, get_is_used m curMeta) :: l)
    else some []

/-- The listing of `print_next`. -/
def print_next (fuel : Nat) (s : State) : Option (List (Nat × Nat × Nat)) :=
  print_next_loop s.mem fuel s.start_of_heap

/-- The loop of `print_free` (lines 52-56): the triples met by following `next_free`. -/
def print_free_loop (m : Mem) : Nat → Nat → Option (List (Nat × Nat × Nat))
  | 0, _ => none
  | fuel + 1, curMeta =>
    if curMeta ≠ 0 then
      (print_free_loop m fuel (get_next_free m curMeta)).map
        (fun l => (curMeta, get_size m curMeta, get_is_used m curMeta) :: l)
    else some []

/-- The listing of `print_free`. -/
def print_free (fuel : Nat) (s : State) : Option (List (Nat × Nat × Nat)) :=
  print_free_loop s.mem fuel s.free_start

/-! ## The invariants of the specification, on the listings -/

/-- Whether a listing has two consecutive entries that are both free (`is_used = 0`). -/
def adjacent_free : List (Nat × Nat × Nat) → Bool
  | (_, _, u1) :: (h2, s2, u2) :: l =>
    (u1 == 0 && u2 == 0) || adjacent_free ((h2, s2, u2) :: l)
  | _ => false

/-- The registry/flag invariant on a chain listing and a registry listing: a header of the
chain is listed in the registry iff its `is_used` is `0`, and the registry lists no header
twice. -/
def registry_matches_flags (chain reg : List (Nat × Nat × Nat)) : Bool :=
  chain.all (fun e => decide (e.1 ∈ reg.map Prod.fst) == decide (e.2.2 = 0)) &&
    decide (reg.map Prod.fst).Nodup

/-- The caller stores the bytes `P 0, ..., P (n - 1)` at the addresses `p, ..., p + n - 1`. -/
def store_bytes (m : Mem) (p n : Nat) (P : Nat → Nat) : Mem :=
  fun x => if p ≤ x ∧ x < p + n then P (x - p) % 256 else m x

/-- Two header addresses are the same or their 24-byte headers do not overlap. -/
def Sep (a b : Nat) : Prop := a = b ∨ a + 24 ≤ b ∨ b + 24 ≤ a

/-- The header `h` is on the free list that starts at `h0`: reachable through `next_free`,
before any `NULL`. -/
inductive InRegistry (m : Mem) (h0 : Nat) : Nat → Prop
  | head : h0 ≠ 0 → InRegistry m h0 h0
  | next {h : Nat} : InRegistry m h0 h → get_next_free m h ≠ 0 →
      InRegistry m h0 (get_next_free m h)

/-- The state after `A = malloc(16); B = malloc(16); free(A)` on the fresh heap at 4096:
sentinel 4096, `A` at header 4120 (free, the only entry of the free list), `B` at header
4160 (in use, payload 4184), break 4200. -/
def example_state : State :=
  ((malloc 9 (init 4096) 16).bind fun r =>
    (malloc 9 r.1 16).bind fun r2 => free 9 r2.1 r.2).getD (init 4096)

/-- The free list that starts at `h` is the finite list `L` of headers: following
`next_free` from `h` visits exactly the elements of `L`, in order, and then `NULL`. -/
def RegList (m : Mem) : Nat → List Nat → Prop
  | h, [] => h = 0
  | h, g :: L => h = g ∧ g ≠ 0 ∧ RegList m (get_next_free m g) L

/-- The last element of `L`, or `d` when `L` is empty. -/
def lastD (d : Nat) : List Nat → Nat
  | [] => d
  | g :: L => lastD g L

/-- The state after `A = malloc(16); B = malloc(16); C = malloc(100); D = malloc(16);
free(A); free(C)` on the fresh heap at 4096: headers 4096 (sentinel), 4120 (`A`, free),
4160 (`B`), 4200 (`C`, free, size 100), 4324 (`D`), break 4364; the free list is
`A`, `C`. -/
def example_state2 : State :=
  ((malloc 9 (init 4096) 16).bind fun a =>
    (malloc 9 a.1 16).bind fun b =>
    (malloc 9 b.1 100).bind fun c =>
    (malloc 9 c.1 16).bind fun d =>
    (free 9 d.1 a.2).bind fun s => free 9 s c.2).getD (init 4096)

instance RegList.instDecidable (m : Mem) : ∀ (h : Nat) (L : List Nat), Decidable (RegList m h L)
  | h, [] => inferInstanceAs (Decidable (h = 0))
  | h, g :: L =>
    have := RegList.instDecidable m (get_next_free m g) L
    inferInstanceAs (Decidable (h = g ∧ g ≠ 0 ∧ RegList m (get_next_free m g) L))

/-- The state after `A = malloc(16); B = malloc(16); C = malloc(16); free(A); free(C);
free(B); malloc(16)` on the fresh heap at 4096.  The last `free` merges `B` into `A` and
then stores `A->next_free = B`; the `malloc` splits `A` at the address of `B`, and the
remainder inherits `A->next_free`, which is its own address 4160. -/
def example_state3 : State :=
  ((malloc 9 (init 4096) 16).bind fun a =>
    (malloc 9 a.1 16).bind fun b =>
    (malloc 9 b.1 16).bind fun c =>
    (free 9 c.1 a.2).bind fun s =>
    (free 9 s c.2).bind fun s =>
    (free 9 s b.2).bind fun s =>
    (malloc 9 s 16).map fun r => r.1).getD (init 4096)

/-! ## Reading after writing -/

theorem wrLE_outside (m : Mem) (a v k x : Nat) (h : x < a ∨ a + k ≤ x) :
    wrLE m a v k x = m x := by
  induction k generalizing m a v with
  | zero => rfl
  | succ k ih =>
    rw [wrLE, ih _ _ _ (by omega)]
    have : x ≠ a := by omega
    simp [this]

theorem rdLE_congr (m m' : Mem) (a k : Nat) (h : ∀ x, a ≤ x → x < a + k → m x = m' x) :
    rdLE m a k = rdLE m' a k := by
  induction k generalizing a with
  | zero => rfl
  | succ k ih =>
    rw [rdLE, rdLE, h a (by omega) (by omega), ih (a + 1) (fun x h1 h2 => h x (by omega) (by omega))]

theorem rdLE_wrLE_disj (m : Mem) (a k a' v k' : Nat) (h : a' + k' ≤ a ∨ a + k ≤ a') :
    rdLE (wrLE m a' v k') a k = rdLE m a k :=
  rdLE_congr _ _ _ _ (fun x _ _ => wrLE_outside m a' v k' x (by omega))

theorem rdLE_wrLE_same (m : Mem) (a v k : Nat) : rdLE (wrLE m a v k) a k = v % 256 ^ k := by
  induction k generalizing m a v with
  | zero => simp [rdLE, Nat.mod_one]
  | succ k ih =>
    rw [rdLE, wrLE, ih, wrLE_outside _ _ _ _ _ (Or.inl (Nat.lt_succ_self a))]
    simp only [if_true]
    rw [Nat.mod_mod, pow_succ, Nat.mul_comm (256 ^ k) 256, Nat.mod_mul]

theorem rdLE_wrLE_eq (m : Mem) (a a' v k : Nat) (h : a = a') :
    rdLE (wrLE m a' v k) a k = v % 256 ^ k := by
  subst h; exact rdLE_wrLE_same m a v k

theorem rdLE_lt (m : Mem) (a k : Nat) : rdLE m a k < 256 ^ k := by
  induction k generalizing a with
  | zero => simp [rdLE]
  | succ k ih =>
    have := ih (a + 1)
    have h2 : m a % 256 < 256 := Nat.mod_lt _ (by norm_num)
    rw [rdLE, pow_succ]
    omega

/-! ## The paths of `malloc`, field by field -/

theorem sbrk_small (s : State) (n : Nat) (h : n < 2 ^ 63) :
    sbrk s n = ({ s with brk := s.brk + n }, s.brk) := by
  have h1 : n % 2 ^ 64 = n := Nat.mod_eq_of_lt (by omega)
  simp only [sbrk, h1, if_pos h]

theorem malloc_init_of_ne (s : State) (h : s.start_of_heap ≠ 0) : malloc_init s = s := by
  simp only [malloc_init, if_neg h]

theorem malloc_init_of_eq (s : State) (h : s.start_of_heap = 0) :
    malloc_init s =
      { mem := set_next (set_size (set_is_used s.mem s.brk 1) s.brk 0) s.brk 0,
        brk := s.brk + 24, start_of_heap := s.brk, last_meta := s.brk,
        free_start := s.free_start } := by
  simp only [malloc_init, if_pos h, sizeof_metadata_t, sbrk_small s 24 (by norm_num)]

theorem malloc_fresh_eq (s : State) (n : Nat) (h : n < 2 ^ 63) :
    malloc_fresh s n =
      ({ mem := set_next (set_is_used (set_size s.mem s.brk n) s.brk 1) s.last_meta s.brk,
         brk := s.brk + 24 + n, start_of_heap := s.start_of_heap, last_meta := s.brk,
         free_start := s.free_start }, s.brk + 24) := by
  simp only [malloc_fresh, sizeof_metadata_t, sbrk_small s 24 (by norm_num), sbrk_small _ n h]

theorem malloc_take_snd (s : State) (size curr prev : Nat) :
    (malloc_take s size curr prev).2 = curr + sizeof_metadata_t := by
  unfold malloc_take
  dsimp only
  split_ifs <;> rfl

theorem malloc_take_brk (s : State) (size curr prev : Nat) :
    (malloc_take s size curr prev).1.brk = s.brk := by
  unfold malloc_take
  dsimp only
  split_ifs <;> rfl

theorem rdLE_zero (a k : Nat) : rdLE (fun _ => 0) a k = 0 := by
  induction k generalizing a with
  | zero => rfl
  | succ k ih => simp [rdLE, ih]

attribute [irreducible] rdLE wrLE

theorem malloc_init_free_start (s : State) : (malloc_init s).free_start = s.free_start := by
  unfold malloc_init
  split_ifs <;> rfl

theorem malloc_of_empty (fuel : Nat) (s : State) (size : Nat) (hsz : size ≠ 0)
    (hreg : s.free_start = 0) :
    malloc fuel s size = some (malloc_fresh (malloc_init s) size) := by
  simp only [malloc, if_neg hsz, malloc_init_free_start, hreg, if_true]

theorem malloc_of_fit_head (fuel : Nat) (s : State) (size : Nat) (hsz : size ≠ 0)
    (hst : s.start_of_heap ≠ 0) (hreg : s.free_start ≠ 0)
    (hfit : size ≤ get_size s.mem s.free_start) :
    malloc (fuel + 1) s size = some (malloc_take s size s.free_start 0) := by
  simp only [malloc, if_neg hsz, malloc_init_of_ne s hst, if_neg hreg, malloc_search, ge_iff_le,
    if_pos hfit, Option.map_some', malloc_finish, if_pos hreg]

theorem free_of_empty (fuel : Nat) (s : State) (ptr : Nat) (hp : ptr ≠ 0)
    (hu : get_is_used s.mem (ptr - sizeof_metadata_t) ≠ 0) (hreg : s.free_start = 0) :
    free fuel s ptr = some { s with mem := set_is_used s.mem (ptr - sizeof_metadata_t) 0,
                                    free_start := ptr - sizeof_metadata_t } := by
  simp only [free, if_neg hp, if_neg hu, if_pos hreg]

/-! ## C1 - C4: the invariants on concrete runs -/

set_option synthInstance.maxSize 1000 in
/-- C1 (the code fails the claim). On a fresh heap, `A = malloc(16)`, `B = malloc(16)`,
`C = malloc(16)`, then `free(A)`, `free(C)`, `free(B)`: the last `free` merges `B` into
`A` and stops there (the `else if` of line 232), so the chain is sentinel, `A` (size 56,
free), `C` (free): two adjacent free blocks once `free` has returned. -/
theorem free_between_two_free_blocks :
    (do
      let (s, a) ← malloc 9 (init 4096) 16
      let (s, b) ← malloc 9 s 16
      let (s, c) ← malloc 9 s 16
      let s ← free 9 s a
      let s ← free 9 s c
      let s ← free 9 s b
      pure (a, b, c, print_next 9 s, (print_next 9 s).map adjacent_free))
    = some (4144, 4184, 4224, some [(4096, 0, 1), (4120, 56, 0), (4200, 16, 0)], some true) := by
  decide!

set_option synthInstance.maxSize 1000 in
/-- C2 (the code fails the claim). On a fresh heap, `p = malloc(16)`, `free(p)`,
`malloc(16)`: the block is taken again without a split, and since it was the head of the
free list `free_start` is left pointing at it (line 160 only handles `prev`).  The free
list then lists the header 4120, which is in use. -/
theorem registry_keeps_used_head :
    (do
      let (s, p) ← malloc 9 (init 4096) 16
      let s ← free 9 s p
      let (s, q) ← malloc 9 s 16
      pure (p, q, print_next 9 s, print_free 9 s,
        registry_matches_flags ((print_next 9 s).getD []) ((print_free 9 s).getD [])))
    = some (4144, 4144, some [(4096, 0, 1), (4120, 16, 1)], some [(4120, 16, 1)], false) := by
  decide!

/-- C3 (the code fails the claim). Two runs from a fresh heap after which the raw walk
of `print_heap` and the chain walk of `print_next` list different blocks:
`A = malloc(8); B = malloc(8); free(A); malloc(100)` (the free block `A`, which is not the
last block of the heap, is grown over `B`), and
`A = malloc(100); free(A); malloc(10); malloc(200); malloc(8)` (the block split off `A`
is never made `last_meta`, so the next fresh block is linked after `A`). -/
theorem raw_walk_differs_from_chain :
    (do
      let (s, a) ← malloc 9 (init 4096) 8
      let (s, _) ← malloc 9 s 8
      let s ← free 9 s a
      let (s, _) ← malloc 9 s 100
      pure (print_heap 9 s, print_next 9 s))
    = some (some [(4096, 0, 1), (4120, 100, 1), (4244, 0, 0), (4268, 0, 0)],
            some [(4096, 0, 1), (4120, 100, 1), (4152, 8, 1)]) ∧
    (do
      let (s, a) ← malloc 9 (init 4096) 100
      let s ← free 9 s a
      let (s, _) ← malloc 9 s 10
      let (s, _) ← malloc 9 s 200
      let (s, _) ← malloc 9 s 8
      pure (print_heap 9 s, print_next 9 s))
    = some (some [(4096, 0, 1), (4120, 10, 1), (4154, 200, 1), (4378, 8, 1)],
            some [(4096, 0, 1), (4120, 10, 1), (4378, 8, 1)]) := by
  constructor <;> decide!

set_option synthInstance.maxSize 1000 in
/-- C4 (the code fails the claim). On a fresh heap, `A = malloc(8)`, `B = malloc(8)`,
`free(A)`, `p = malloc(100)`: the call grows the free block `A` (header 4120: `is_used`
goes from 0 to 1, `size` becomes 100) but returns `p = 4176`, the old break minus the old
size of `A`, which is the payload pointer of `B` and not `4120 + 24`. -/
theorem extend_returns_other_payload :
    (do
      let (s, a) ← malloc 9 (init 4096) 8
      let (s, b) ← malloc 9 s 8
      let s ← free 9 s a
      let (t, p) ← malloc 9 s 100
      pure (a, b, p, get_is_used s.mem 4120, get_is_used t.mem 4120, get_size t.mem 4120,
        get_is_used s.mem 4152, get_is_used t.mem 4152))
    = some (4144, 4176, 4176, 0, 1, 100, 1, 1) := by
  decide!

/-! ## C5: reuse -/

theorem reuse_core (s1 : State) (h n fuel f3 : Nat) (hh : h ≠ 0) (hn : n ≠ 0)
    (hu : get_is_used s1.mem h ≠ 0) (hs : get_size s1.mem h = n)
    (hreg : s1.free_start = 0) (hst : s1.start_of_heap ≠ 0) :
    ∃ s2 s3, free fuel s1 (h + 24) = some s2 ∧
      malloc (f3 + 1) s2 n = some (s3, h + 24) ∧ s3.brk = s1.brk := by
  have hsub : h + 24 - sizeof_metadata_t = h := by simp [sizeof_metadata_t]
  have hs2 : get_size (set_is_used s1.mem h 0) h = n := by
    rw [← hs]
    simp (disch := omega) only [get_size, set_is_used, rdLE_wrLE_disj]
  have hf := free_of_empty fuel s1 (h + 24) (by omega) (by rw [hsub]; exact hu) hreg
  rw [hsub] at hf
  have h2 : malloc (f3 + 1) { s1 with mem := set_is_used s1.mem h 0, free_start := h } n
      = some (malloc_take _ n h 0) := malloc_of_fit_head f3 _ n hn hst hh hs2.ge
  rw [← Prod.eta (malloc_take _ n h 0), malloc_take_snd] at h2
  exact ⟨_, _, hf, h2, malloc_take_brk _ _ _ _⟩

theorem malloc_fresh_used (s : State) (n : Nat) (hn : n < 2 ^ 63)
    (hlast : s.last_meta + 24 ≤ s.brk) :
    get_is_used (malloc_fresh s n).1.mem s.brk = 1 := by
  rw [malloc_fresh_eq s n hn]
  simp (disch := omega) only [get_is_used, set_next, set_is_used, rdLE_wrLE_disj,
    rdLE_wrLE_same, Nat.reducePow, Nat.reduceMod]

theorem malloc_fresh_size (s : State) (n : Nat) (hn : n < 2 ^ 32)
    (hlast : s.last_meta + 24 ≤ s.brk) :
    get_size (malloc_fresh s n).1.mem s.brk = n := by
  rw [malloc_fresh_eq s n (by omega)]
  simp (disch := omega) only [get_size, set_size, set_next, set_is_used, rdLE_wrLE_disj,
    rdLE_wrLE_same]
  exact Nat.mod_eq_of_lt (by norm_num; omega)

theorem malloc_init_wf (s : State) (hbrk : 0 < s.brk)
    (hlast : s.start_of_heap ≠ 0 → s.last_meta + sizeof_metadata_t ≤ s.brk) :
    (malloc_init s).start_of_heap ≠ 0 ∧ (malloc_init s).last_meta + 24 ≤ (malloc_init s).brk ∧
      0 < (malloc_init s).brk := by
  by_cases h : s.start_of_heap = 0
  · rw [malloc_init_of_eq s h]
    dsimp only
    omega
  · rw [malloc_init_of_ne s h]
    exact ⟨h, hlast h, hbrk⟩

/-- Reuse round trip where the last header lies below the break: from any state with an
empty free list, the break above `0` and the header `last_meta` below the break, for
`0 < n < 2^32` the calls `p = malloc(n); free(p); q = malloc(n)` all return, `q = p`, and
the break after the third call is the break after the first. -/
theorem reuse_round_trip (s : State) (n f1 f2 f3 : Nat)
    (hreg : s.free_start = 0) (hbrk : 0 < s.brk)
    (hlast : s.start_of_heap ≠ 0 → s.last_meta + sizeof_metadata_t ≤ s.brk)
    (hn : 0 < n) (hn32 : n < 2 ^ 32) :
    ∃ s1 p s2 s3, malloc f1 s n = some (s1, p) ∧ free f2 s1 p = some s2 ∧
      malloc (f3 + 1) s2 n = some (s3, p) ∧ p ≠ 0 ∧ s3.brk = s1.brk := by
  obtain ⟨hst, hl, hb⟩ := malloc_init_wf s hbrk hlast
  have hm := malloc_of_empty f1 s n (by omega) hreg
  have hfs : (malloc_fresh (malloc_init s) n).1.free_start = 0 := by
    rw [malloc_fresh_eq _ n (by omega), malloc_init_free_start, hreg]
  have hsh : (malloc_fresh (malloc_init s) n).1.start_of_heap ≠ 0 := by
    rw [malloc_fresh_eq _ n (by omega)]; exact hst
  have hp : (malloc_fresh (malloc_init s) n).2 = (malloc_init s).brk + 24 := by
    rw [malloc_fresh_eq _ n (by omega)]
  have hu := malloc_fresh_used (malloc_init s) n (by omega) hl
  have hs := malloc_fresh_size (malloc_init s) n hn32 hl
  obtain ⟨s2, s3, h2, h3, h4⟩ := reuse_core (malloc_fresh (malloc_init s) n).1
    (malloc_init s).brk n f2 f3 (by omega) (by omega) (by rw [hu]; decide) hs hfs hsh
  exact ⟨_, _, s2, s3, by rw [hm, ← hp], h2, h3, by omega, h4⟩

/-- Witness of `reuse_round_trip`: the fresh heap at 4096 and `n = 16`. -/
theorem reuse_round_trip_witness :
    (init 4096).free_start = 0 ∧ 0 < (init 4096).brk ∧ 0 < 16 ∧ 16 < 2 ^ 32 ∧
    ∃ s1 p s2 s3, malloc 0 (init 4096) 16 = some (s1, p) ∧ free 0 s1 p = some s2 ∧
      malloc (0 + 1) s2 16 = some (s3, p) ∧ p ≠ 0 ∧ s3.brk = s1.brk :=
  ⟨rfl, by decide, by decide, by decide,
    reuse_round_trip (init 4096) 16 0 0 0 rfl (by decide) (fun h => absurd rfl h)
      (by decide) (by decide)⟩

set_option synthInstance.maxSize 2000 in
/-- C5 (the code fails the claim). On a fresh heap, `malloc(100)`, then `malloc(2^64 - 8)`:
line 128 passes the size to `sbrk`, whose argument is signed, so the break moves down by 8
and ends at 4260, inside the header 4244 that the call has just made `last_meta`; the free
list is empty.  Then `p = malloc(16)` writes its header at 4260 and line 130 stores
`last->next` over it (`size` becomes 4260, `is_used` becomes 0), `free(p)` sees a free
block and does nothing, and `q = malloc(16)` takes a fresh block: `q ≠ p`, and the break
after the third call (4340) is not the break after the first (4300). -/
theorem reuse_fails_after_break_moved_down :
    (do
      let (s, _) ← malloc 9 (init 4096) 100
      let (s, _) ← malloc 9 s (2 ^ 64 - 8)
      let (s1, p) ← malloc 9 s 16
      let s2 ← free 9 s1 p
      let (s3, q) ← malloc 9 s2 16
      pure ([s.free_start, s.last_meta, s.brk, p, q, s1.brk, s3.brk,
        get_size s1.mem (p - 24), get_is_used s1.mem (p - 24), s2.free_start],
        decide (q = p), decide (s3.brk = s1.brk)))
    = some ([0, 4244, 4260, 4284, 4324, 4300, 4340, 4260, 0, 0], false, false) := by
  decide!

/-! ## Symbolic execution: deciding the tests of the code -/

theorem nat_eq_false {a b : Nat} (h : a ≠ b) : (a = b) = False := eq_false h
theorem nat_eq_true {a b : Nat} (h : a = b) : (a = b) = True := eq_true h
theorem nat_le_false {a b : Nat} (h : b < a) : (a ≤ b) = False := eq_false (Nat.not_le.mpr h)
theorem nat_le_true {a b : Nat} (h : a ≤ b) : (a ≤ b) = True := eq_true h
theorem nat_lt_false {a b : Nat} (h : b ≤ a) : (a < b) = False := eq_false (Nat.not_lt.mpr h)
theorem nat_lt_true {a b : Nat} (h : a < b) : (a < b) = True := eq_true h

/-- C6. Forward coalescing: on a fresh heap at `b`, for `0 < n` with
`2 * n + sizeof(metadata_t) < 2^32` (the heap lying below `2^64`), the calls
`A = malloc(n); B = malloc(n); C = malloc(n); free(B); free(A)` all return; afterwards the
header of `A` (at `A - 24 = b + 24`) is free, has size `2 * n + sizeof(metadata_t)`, its
`next` is the header of `C`, the free list is exactly that one header; and
`malloc(2 * n + sizeof(metadata_t))` then returns `A` and leaves the break where it was. -/
theorem forward_coalescing (b n f : Nat) (hb : 0 < b) (hn : 0 < n)
    (h32 : 2 * n + sizeof_metadata_t < 2 ^ 32) (h64 : b + 3 * n + 96 ≤ 2 ^ 64) :
    (do
      let (s, A) ← malloc f (init b) n
      let (s, B) ← malloc f s n
      let (s, C) ← malloc f s n
      let s ← free f s B
      let s ← free (f + 1) s A
      let (t, p) ← malloc (f + 1) s (2 * n + sizeof_metadata_t)
      pure ([A, B, C, p], [get_is_used s.mem (A - 24), get_size s.mem (A - 24),
        get_next s.mem (A - 24)], print_free (f + 2) s, [s.brk, t.brk]))
    = some ([b + 48, b + 72 + n, b + 96 + 2 * n, b + 48],
        [0, 2 * n + sizeof_metadata_t, b + 72 + 2 * n],
        some [(b + 24, 2 * n + sizeof_metadata_t, 0)],
        [b + 96 + 3 * n, b + 96 + 3 * n]) := by
  simp only [sizeof_metadata_t] at h32
  have hn63 : n < 2 ^ 63 := by omega
  simp (disch := omega) only [malloc, malloc_init, malloc_fresh, sbrk_small, init,
    sizeof_metadata_t, ↓reduceIte, nat_eq_false, Option.bind_eq_bind, Option.some_bind]
  simp (disch := omega) only [free, free_loop, free_finish, free_merge, merge, sizeof_metadata_t,
    get_is_used, get_next, get_size, get_next_free, set_is_used, set_next, set_size, set_next_free,
    rdLE_wrLE_eq, rdLE_wrLE_disj, rdLE_zero, Nat.reducePow, Nat.reduceMod, Nat.mod_eq_of_lt,
    Option.bind_eq_bind, Option.some_bind, Option.map_some', ↓reduceIte, Nat.add_sub_cancel,
    nat_eq_false, nat_eq_true, ne_eq, not_true_eq_false, not_false_eq_true, and_true, true_and,
    and_false, false_and, Nat.zero_mod]
  simp (disch := omega) only [malloc, malloc_init, malloc_search, malloc_finish, malloc_take,
    int_as_size_t, print_free, print_free_loop, sizeof_metadata_t,
    get_is_used, get_next, get_size, get_next_free, set_is_used, set_next, set_size, set_next_free,
    rdLE_wrLE_eq, rdLE_wrLE_disj, rdLE_zero, Nat.reducePow, Nat.reduceMod, Nat.mod_eq_of_lt,
    Option.bind_eq_bind, Option.some_bind, Option.map_some', ↓reduceIte, Nat.add_sub_cancel,
    nat_eq_false, nat_eq_true, nat_le_true, nat_lt_true, nat_lt_false, nat_le_false,
    ne_eq, not_true_eq_false, not_false_eq_true, and_true, true_and, ge_iff_le, gt_iff_lt,
    and_false, false_and, Nat.zero_mod, Nat.sub_self]
  simp only [Option.pure_def, Option.some.injEq, Prod.mk.injEq, List.cons.injEq, and_true,
    true_and]
  and_intros <;> omega

/-- Witness of `forward_coalescing`: heap at 4096, `n = 16`. -/
theorem forward_coalescing_witness :
    0 < 4096 ∧ 0 < 16 ∧ 2 * 16 + sizeof_metadata_t < 2 ^ 32 ∧ 4096 + 3 * 16 + 96 ≤ 2 ^ 64 ∧
    (do
      let (s, A) ← malloc 0 (init 4096) 16
      let (s, B) ← malloc 0 s 16
      let (s, C) ← malloc 0 s 16
      let s ← free 0 s B
      let s ← free (0 + 1) s A
      let (t, p) ← malloc (0 + 1) s (2 * 16 + sizeof_metadata_t)
      pure ([A, B, C, p], [get_is_used s.mem (A - 24), get_size s.mem (A - 24),
        get_next s.mem (A - 24)], print_free (0 + 2) s, [s.brk, t.brk]))
    = some ([4096 + 48, 4096 + 72 + 16, 4096 + 96 + 2 * 16, 4096 + 48],
        [0, 2 * 16 + sizeof_metadata_t, 4096 + 72 + 2 * 16],
        some [(4096 + 24, 2 * 16 + sizeof_metadata_t, 0)],
        [4096 + 96 + 3 * 16, 4096 + 96 + 3 * 16]) :=
  ⟨by decide, by decide, by decide, by decide,
    forward_coalescing 4096 16 0 (by decide) (by decide) (by decide) (by decide)⟩

/-! ## C7: release no-ops -/

theorem get_is_used_merge (m : Mem) (a b x : Nat) (h : Sep a x) :
    get_is_used (merge m a b) x = get_is_used m x := by
  rcases h with h | h | h
  · subst h
    simp (disch := omega) only [merge, get_is_used, set_size, set_next, set_next_free,
      rdLE_wrLE_disj]
  · simp (disch := omega) only [merge, get_is_used, set_size, set_next, set_next_free,
      rdLE_wrLE_disj]
  · simp (disch := omega) only [merge, get_is_used, set_size, set_next, set_next_free,
      rdLE_wrLE_disj]

theorem get_next_merge_self (m : Mem) (a b : Nat) (h : Sep a b) :
    get_next (merge m a b) a = get_next m b := by
  have hlt : get_next m b < 2 ^ 64 := by
    have := rdLE_lt m (b + 16) 8
    simpa [get_next] using this
  have e : get_next (set_size m a (get_size m a + (sizeof_metadata_t + get_size m b))) b
      = get_next m b := by
    rcases h with h | h | h
    · subst h
      simp (disch := omega) only [get_next, set_size, rdLE_wrLE_disj]
    · simp (disch := omega) only [get_next, set_size, rdLE_wrLE_disj]
    · simp (disch := omega) only [get_next, set_size, rdLE_wrLE_disj]
  simp only [merge, e]
  simp (disch := omega) only [get_next, set_next, set_next_free, rdLE_wrLE_disj, rdLE_wrLE_same]
  exact Nat.mod_eq_of_lt (by simpa [get_next] using hlt)

theorem get_next_merge_other (m : Mem) (a b x : Nat) (h : a + 24 ≤ x ∨ x + 24 ≤ a) :
    get_next (merge m a b) x = get_next m x := by
  simp (disch := omega) only [merge, get_next, set_size, set_next, set_next_free,
    rdLE_wrLE_disj]

theorem get_is_used_set_next_free (m : Mem) (g v x : Nat) (h : Sep g x) :
    get_is_used (set_next_free m g v) x = get_is_used m x := by
  rcases h with h | h | h
  · subst h
    simp (disch := omega) only [get_is_used, set_next_free, rdLE_wrLE_disj]
  · simp (disch := omega) only [get_is_used, set_next_free, rdLE_wrLE_disj]
  · simp (disch := omega) only [get_is_used, set_next_free, rdLE_wrLE_disj]

theorem get_next_set_is_used (m : Mem) (g v x : Nat) (h : Sep g x) :
    get_next (set_is_used m g v) x = get_next m x := by
  rcases h with h | h | h
  · subst h
    simp (disch := omega) only [get_next, set_is_used, rdLE_wrLE_disj]
  · simp (disch := omega) only [get_next, set_is_used, rdLE_wrLE_disj]
  · simp (disch := omega) only [get_next, set_is_used, rdLE_wrLE_disj]

theorem get_is_used_set_is_used (m : Mem) (h v : Nat) :
    get_is_used (set_is_used m h v) h = v % 256 := by
  simp only [get_is_used, set_is_used, rdLE_wrLE_same, pow_one]

theorem free_loop_keeps (G : List Nat) (meta : Nat) (hG : ∀ a ∈ G, ∀ b ∈ G, Sep a b)
    (hmeta : meta ∈ G) :
    ∀ (fuel : Nat) (m : Mem) (curr prev pf : Nat) (r : Mem × Nat × Nat × Nat),
      get_is_used m meta = 0 →
      (∀ g ∈ G, get_next m g = 0 ∨ get_next m g ∈ G) →
      (curr = 0 ∨ curr ∈ G) → (prev = 0 ∨ (prev ∈ G ∧ prev ≠ meta)) →
      (pf = 0 ∨ (pf ∈ G ∧ pf ≠ meta)) →
      free_loop meta fuel m curr prev pf = some r →
      get_is_used r.1 meta = 0 ∧ (r.2.1 = 0 ∨ r.2.1 = meta) ∧
        (r.2.2.1 = 0 ∨ (r.2.2.1 ∈ G ∧ r.2.2.1 ≠ meta)) ∧
        (r.2.2.2 = 0 ∨ (r.2.2.2 ∈ G ∧ r.2.2.2 ≠ meta)) := by
  intro fuel
  induction fuel with
  | zero => intro m curr prev pf r _ _ _ _ _ h; simp [free_loop] at h
  | succ fuel ih =>
    intro m curr prev pf r hu hcl hc hp hpf h
    by_cases hcond : curr ≠ 0 ∧ curr ≠ meta
    · rw [free_loop, if_pos hcond] at h
      have hcG : curr ∈ G := hc.resolve_left hcond.1
      have key : ∀ m1 : Mem, m1 = (if prev ≠ 0 ∧ get_is_used m prev = 0 ∧ get_is_used m curr = 0
          then merge m prev curr else m) →
          get_is_used m1 meta = 0 ∧ (∀ g ∈ G, get_next m1 g = 0 ∨ get_next m1 g ∈ G) := by
        intro m1 hm1
        by_cases hmg : prev ≠ 0 ∧ get_is_used m prev = 0 ∧ get_is_used m curr = 0
        · rw [if_pos hmg] at hm1
          subst hm1
          have hpG := hp.resolve_left hmg.1
          refine ⟨by rw [get_is_used_merge _ _ _ _ (hG _ hpG.1 _ hmeta)]; exact hu, ?_⟩
          intro g hg
          by_cases hgp : g = prev
          · subst hgp
            rw [get_next_merge_self _ _ _ (hG _ hg _ hcG)]
            exact hcl curr hcG
          · have hs := hG _ hpG.1 _ hg
            rw [get_next_merge_other _ _ _ _
              (hs.resolve_left (fun e => hgp e.symm))]
            exact hcl g hg
        · rw [if_neg hmg] at hm1
          subst hm1
          exact ⟨hu, hcl⟩
      obtain ⟨hu1, hcl1⟩ := key _ rfl
      refine ih _ _ _ _ r hu1 hcl1 (hcl1 curr hcG) (Or.inr ⟨hcG, hcond.2⟩) ?_ h
      by_cases hf : get_is_used m curr = 0
      · rw [if_pos hf]; exact Or.inr ⟨hcG, hcond.2⟩
      · rw [if_neg hf]; exact hpf
    · rw [free_loop, if_neg hcond] at h
      cases h
      refine ⟨hu, ?_, hp, hpf⟩
      by_cases h0 : curr = 0
      · exact Or.inl h0
      · exact Or.inr (by_contra fun h1 => hcond ⟨h0, h1⟩)

theorem free_finish_unused (G : List Nat) (s : State) (meta : Nat)
    (hG : ∀ a ∈ G, ∀ b ∈ G, Sep a b) (hmeta : meta ∈ G) (r : Mem × Nat × Nat × Nat)
    (hu : get_is_used r.1 meta = 0) (hc : r.2.1 = 0 ∨ r.2.1 = meta)
    (hp : r.2.2.1 = 0 ∨ (r.2.2.1 ∈ G ∧ r.2.2.1 ≠ meta))
    (hpf : r.2.2.2 = 0 ∨ (r.2.2.2 ∈ G ∧ r.2.2.2 ≠ meta)) :
    get_is_used (free_finish s meta r).mem meta = 0 := by
  obtain ⟨m, curr, prev, pf⟩ := r
  simp only at hu hc hp hpf
  have hm : get_is_used (free_merge m curr prev) meta = 0 := by
    unfold free_merge
    dsimp only
    split_ifs with h1 h2 h3
    · rw [get_is_used_merge _ _ _ _ (hG _ (hp.resolve_left h1.1).1 _ hmeta)]; exact hu
    · have : curr = meta := hc.resolve_left h2.1
      subst this
      rw [get_is_used_merge _ _ _ _ (Or.inl rfl)]; exact hu
    · exact hu
    · exact hu
  simp only [free_finish]
  split_ifs with h
  · exact hm
  · simp only
    rw [get_is_used_set_next_free _ _ _ _ (hG _ (hpf.resolve_left h).1 _ hmeta)]
    exact hm

theorem count_above_lt (G : List Nat) (a b : Nat) (hb : b ∈ G) (hab : a < b) :
    (G.filter (fun g => decide (b < g))).length < (G.filter (fun g => decide (a < g))).length := by
  induction G with
  | nil => cases hb
  | cons x G ih =>
    have hmono : (G.filter (fun g => decide (b < g))).length ≤
        (G.filter (fun g => decide (a < g))).length := by
      clear ih hb
      induction G with
      | nil => simp
      | cons y G ih2 =>
        simp only [List.filter_cons]
        by_cases h1 : b < y
        · have h2 : a < y := by omega
          simp [h1, h2, ih2]
        · by_cases h2 : a < y
          · simp [h1, h2]; omega
          · simp [h1, h2, ih2]
    simp only [List.filter_cons]
    rcases List.mem_cons.mp hb with h | h
    · subst h
      simp [hab]
      omega
    · have := ih h
      by_cases h1 : b < x
      · have h2 : a < x := by omega
        simp [h1, h2, this]
      · by_cases h2 : a < x
        · simp [h1, h2]; omega
        · simp [h1, h2, this]

theorem count_above_le (G : List Nat) (a : Nat) (ha : a ∈ G) :
    (G.filter (fun g => decide (a < g))).length + 1 ≤ G.length := by
  induction G with
  | nil => cases ha
  | cons x G ih =>
    simp only [List.filter_cons, List.length_cons]
    rcases List.mem_cons.mp ha with h | h
    · subst h
      simp
      exact List.length_filter_le _ _
    · have := ih h
      by_cases h1 : a < x
      · simp [h1]; omega
      · simp [h1]; omega


theorem free_loop_returns (G : List Nat) (meta : Nat) (hG : ∀ a ∈ G, ∀ b ∈ G, Sep a b) :
    ∀ (fuel : Nat) (m : Mem) (curr prev pf : Nat),
      (∀ g ∈ G, get_next m g = 0 ∨ (get_next m g ∈ G ∧ g < get_next m g)) →
      (curr = 0 ∨ curr ∈ G) → (prev = 0 ∨ (prev ∈ G ∧ (curr = 0 ∨ prev < curr))) →
      (curr = 0 → 1 ≤ fuel) →
      (curr ≠ 0 → (G.filter (fun g => decide (curr < g))).length + 2 ≤ fuel) →
      ∃ r, free_loop meta fuel m curr prev pf = some r := by
  intro fuel
  induction fuel with
  | zero =>
    intro m curr prev pf _ _ _ h0 h1
    by_cases hc : curr = 0
    · exact absurd (h0 hc) (by omega)
    · exact absurd (h1 hc) (by omega)
  | succ fuel ih =>
    intro m curr prev pf hfw hc hp h0 h1
    by_cases hcond : curr ≠ 0 ∧ curr ≠ meta
    · rw [free_loop, if_pos hcond]
      have hcG : curr ∈ G := hc.resolve_left hcond.1
      have key : ∀ m1 : Mem, m1 = (if prev ≠ 0 ∧ get_is_used m prev = 0 ∧ get_is_used m curr = 0
          then merge m prev curr else m) →
          ∀ g ∈ G, get_next m1 g = 0 ∨ (get_next m1 g ∈ G ∧ g < get_next m1 g) := by
        intro m1 hm1
        by_cases hmg : prev ≠ 0 ∧ get_is_used m prev = 0 ∧ get_is_used m curr = 0
        · rw [if_pos hmg] at hm1
          subst hm1
          obtain ⟨hpG, hlt⟩ := hp.resolve_left hmg.1
          have hlt : prev < curr := hlt.resolve_left hcond.1
          intro g hg
          by_cases hgp : g = prev
          · subst hgp
            rw [get_next_merge_self _ _ _ (hG _ hg _ hcG)]
            rcases hfw curr hcG with h | ⟨h, h'⟩
            · exact Or.inl h
            · exact Or.inr ⟨h, by omega⟩
          · have hs := hG _ hpG _ hg
            rw [get_next_merge_other _ _ _ _ (hs.resolve_left (fun e => hgp e.symm))]
            exact hfw g hg
        · rw [if_neg hmg] at hm1
          subst hm1
          exact hfw
      have hfw1 := key _ rfl
      have h1' := h1 hcond.1
      refine ih _ _ _ _ hfw1 ?_ (Or.inr ⟨hcG, ?_⟩) ?_ ?_
      · rcases hfw1 curr hcG with h | ⟨h, _⟩
        · exact Or.inl h
        · exact Or.inr h
      · rcases hfw1 curr hcG with h | ⟨_, h⟩
        · exact Or.inl h
        · exact Or.inr h
      · intro _; omega
      · intro hne
        rcases hfw1 curr hcG with h | ⟨h, h'⟩
        · exact absurd h hne
        · have := count_above_lt G curr _ h h'
          omega
    · rw [free_loop, if_neg hcond]
      exact ⟨_, rfl⟩

/-- Release no-ops on a chain of disjoint headers: `free(NULL)` returns the state
unchanged, and calling `free(p)` twice in a row gives exactly what calling it once gives
(also when the first call does not return), in every state whose chain headers, together with the header of `p`, are
pairwise disjoint 24-byte records `G` closed under `next`.  When moreover `next` always
points to a higher address, `free(p)` returns as soon as the fuel exceeds the number of
headers. -/
theorem free_null_and_twice (fuel fuel' : Nat) (s : State) (p : Nat) (G : List Nat)
    (hG : ∀ a ∈ G, ∀ b ∈ G, a = b ∨ a + 24 ≤ b ∨ b + 24 ≤ a)
    (hp : p - sizeof_metadata_t ∈ G) (hstart : s.start_of_heap ∈ G)
    (hnext : ∀ g ∈ G, get_next s.mem g = 0 ∨ get_next s.mem g ∈ G) :
    free fuel s 0 = some s ∧
    (free fuel s p).bind (fun s1 => free fuel' s1 p) = free fuel s p ∧
    ((∀ g ∈ G, get_next s.mem g = 0 ∨ g < get_next s.mem g) → G.length < fuel →
      ∃ s1, free fuel s p = some s1) := by
  refine ⟨by simp only [free, if_true], ?_⟩
  by_cases hp0 : p = 0
  · subst hp0
    simp only [free, if_true, Option.some_bind, true_and]
    exact fun _ _ => ⟨s, rfl⟩
  by_cases hu : get_is_used s.mem (p - sizeof_metadata_t) = 0
  · simp only [free, if_neg hp0, if_pos hu, Option.some_bind, true_and]
    exact fun _ _ => ⟨s, rfl⟩
  by_cases hf : s.free_start = 0
  · simp only [free, if_neg hp0, if_neg hu, if_pos hf, Option.some_bind, get_is_used_set_is_used,
      Nat.zero_mod, if_true, true_and]
    exact fun _ _ => ⟨_, rfl⟩
  · have hfree : free fuel s p = (free_loop (p - sizeof_metadata_t) fuel
        (set_is_used s.mem (p - sizeof_metadata_t) 0)
        (get_next (set_is_used s.mem (p - sizeof_metadata_t) 0) s.start_of_heap) 0 0).map
        (free_finish s (p - sizeof_metadata_t)) := by
      simp only [free, if_neg hp0, if_neg hu, if_neg hf]
    have hcl : ∀ g ∈ G, get_next (set_is_used s.mem (p - sizeof_metadata_t) 0) g = 0 ∨
        get_next (set_is_used s.mem (p - sizeof_metadata_t) 0) g ∈ G := by
      intro g hg
      rw [get_next_set_is_used _ _ _ _ (hG _ hp _ hg)]
      exact hnext g hg
    rw [hfree]
    constructor
    · cases hl : free_loop (p - sizeof_metadata_t) fuel
          (set_is_used s.mem (p - sizeof_metadata_t) 0)
          (get_next (set_is_used s.mem (p - sizeof_metadata_t) 0) s.start_of_heap) 0 0 with
      | none => rfl
      | some r =>
        obtain ⟨h1, h2, h3, h4⟩ := free_loop_keeps G _ hG hp fuel _ _ 0 0 r
          (by rw [get_is_used_set_is_used]) hcl (hcl _ hstart) (Or.inl rfl) (Or.inl rfl) hl
        have := free_finish_unused G s _ hG hp r h1 h2 h3 h4
        simp only [Option.map_some', Option.some_bind, free, if_neg hp0, if_pos this]
    · intro hfwd hfuel
      have hfw : ∀ g ∈ G, get_next (set_is_used s.mem (p - sizeof_metadata_t) 0) g = 0 ∨
          (get_next (set_is_used s.mem (p - sizeof_metadata_t) 0) g ∈ G ∧
            g < get_next (set_is_used s.mem (p - sizeof_metadata_t) 0) g) := by
        intro g hg
        rw [get_next_set_is_used _ _ _ _ (hG _ hp _ hg)]
        rcases hnext g hg with h | h
        · exact Or.inl h
        · rcases hfwd g hg with h' | h'
          · exact Or.inl h'
          · exact Or.inr ⟨h, h'⟩
      have hlen : 1 ≤ G.length := List.length_pos_of_mem hstart
      obtain ⟨r, hr⟩ := free_loop_returns G (p - sizeof_metadata_t) hG fuel _
        (get_next (set_is_used s.mem (p - sizeof_metadata_t) 0) s.start_of_heap) 0 0 hfw
        (hcl _ hstart) (Or.inl rfl) (fun _ => by omega)
        (fun hne => by
          have := count_above_le G _ ((hcl _ hstart).resolve_left hne)
          omega)
      exact ⟨_, by rw [hr]; rfl⟩

/-- Witness of `free_null_and_twice`: `example_state`, the pointer 4184 of its in-use
block, and the three headers 4096, 4120, 4160 of its chain, whose `next` fields point
forward. -/
theorem free_null_and_twice_witness :
    (∀ a ∈ [4096, 4120, 4160], ∀ b ∈ [4096, 4120, 4160], a = b ∨ a + 24 ≤ b ∨ b + 24 ≤ a) ∧
    4184 - sizeof_metadata_t ∈ [4096, 4120, 4160] ∧
    example_state.start_of_heap ∈ [4096, 4120, 4160] ∧
    (∀ g ∈ [4096, 4120, 4160], get_next example_state.mem g = 0 ∨
      get_next example_state.mem g ∈ [4096, 4120, 4160]) ∧
    (∀ g ∈ [4096, 4120, 4160], get_next example_state.mem g = 0 ∨
      g < get_next example_state.mem g) ∧
    free 9 example_state 0 = some example_state ∧
    (free 9 example_state 4184).bind (fun s1 => free 9 s1 4184) = free 9 example_state 4184 ∧
    ((∀ g ∈ [4096, 4120, 4160], get_next example_state.mem g = 0 ∨
        g < get_next example_state.mem g) → [4096, 4120, 4160].length < 9 →
      ∃ s1, free 9 example_state 4184 = some s1) :=
  ⟨by decide, by decide, by decide!, by decide!, by decide!,
    free_null_and_twice 9 9 example_state 4184 [4096, 4120, 4160] (by decide) (by decide)
      (by decide!) (by decide!)⟩

set_option synthInstance.maxSize 2000 in
/-- C7 (the code fails the claim). On a fresh heap, `a = malloc(16)`, `malloc(8)`,
`free(a)`, `malloc(1)`, `p = malloc(48)`, `free(a)`, `malloc(12)`: `malloc(1)` takes the
head of the free list and leaves it linked, so `malloc(48)` grows that block and returns
`p = 4176`, the old break minus the old size, whose header address 4152 is no header of
the chain; the last call splits the block at 4156.  Then `free(p)` called once and called
twice give different states: the merge of line 221 in the first call stores the size 24
at 4156, which is the byte `is_used` of the header of `p`, so the second call does not
take the early return of line 206. -/
theorem second_free_changes_state :
    (do
      let (s, a) ← malloc 9 (init 4096) 16
      let (s, _) ← malloc 9 s 8
      let s ← free 9 s a
      let (s, _) ← malloc 9 s 1
      let (s, p) ← malloc 9 s 48
      let s ← free 9 s a
      let (s, _) ← malloc 9 s 12
      let t1 ← free 9 s p
      let t2 ← free 9 t1 p
      pure ([a, p, get_is_used s.mem (p - 24), get_is_used t1.mem (p - 24),
        get_is_used t2.mem (p - 24)],
        [print_next 9 s, print_next 9 t1, print_next 9 t2],
        decide (print_next 9 t2 = print_next 9 t1)))
    = some ([4144, 4176, 12, 24, 0],
        [some [(4096, 0, 1), (4120, 12, 1), (4156, 12, 0), (4160, 0, 0)],
         some [(4096, 0, 1), (4120, 12, 1), (4156, 24, 0)],
         some [(4096, 0, 1), (4120, 12, 1), (4156, 0, 0)]], false) := by
  decide!

/-! ## C8: null result -/

theorem malloc_search_exit (size : Nat) (m : Mem) (h0 : Nat) :
    ∀ (fuel curr prev pf : Nat) (r : Nat × Nat × Nat),
      (curr ≠ 0 → InRegistry m h0 curr) → (prev ≠ 0 → InRegistry m h0 prev) →
      (curr = 0 → prev ≠ 0) →
      malloc_search size m fuel curr prev pf = some r →
      (r.1 ≠ 0 ∨ r.2.1 ≠ 0) ∧ (r.2.1 ≠ 0 → InRegistry m h0 r.2.1) := by
  intro fuel
  induction fuel with
  | zero => intro curr prev pf r _ _ _ h; simp [malloc_search] at h
  | succ fuel ih =>
    intro curr prev pf r hc hp hcp h
    rw [malloc_search] at h
    split_ifs at h with h1 h2
    · cases h
      exact ⟨Or.inr (hcp h1), hp⟩
    · cases h
      exact ⟨Or.inl h1, hp⟩
    · exact ih _ _ _ r (fun hn => InRegistry.next (hc h1) hn) (fun _ => hc h1)
        (fun _ => h1) h

theorem get_size_set_is_used (m : Mem) (h v : Nat) :
    get_size (set_is_used m h v) h = get_size m h := by
  simp (disch := omega) only [get_size, set_is_used, rdLE_wrLE_disj]

theorem malloc_extend_snd (s : State) (size prev pf : Nat) :
    (malloc_extend s size prev pf).2 = s.brk - get_size s.mem prev := by
  unfold malloc_extend
  simp only [sbrk, get_size_set_is_used]
  split_ifs <;> rfl

theorem malloc_fresh_snd (s : State) (size : Nat) :
    (malloc_fresh s size).2 = s.brk + 24 := by
  simp only [malloc_fresh, sbrk, sizeof_metadata_t]
  norm_num

theorem malloc_search_returns (size : Nat) (m : Mem) :
    ∀ (fuel curr prev pf : Nat) (l : List (Nat × Nat × Nat)),
      print_free_loop m fuel curr = some l →
      ∃ r, malloc_search size m fuel curr prev pf = some r := by
  intro fuel
  induction fuel with
  | zero => intro curr prev pf l h; simp [print_free_loop] at h
  | succ fuel ih =>
    intro curr prev pf l h
    rw [malloc_search]
    split_ifs with h1 h2
    · exact ⟨_, rfl⟩
    · exact ⟨_, rfl⟩
    · rw [print_free_loop, if_pos h1] at h
      cases hl : print_free_loop m fuel (get_next_free m curr) with
      | none => rw [hl] at h; cases h
      | some l' => exact ih _ _ _ l' hl

theorem malloc_ne_null (fuel : Nat) (s : State) (size : Nat) (hsz : size ≠ 0)
    (hinit : s.free_start ≠ 0 → s.start_of_heap ≠ 0)
    (hreg : ∀ h, InRegistry s.mem s.free_start h → get_size s.mem h < s.brk)
    (t : State) (p : Nat) (ht : malloc fuel s size = some (t, p)) : p ≠ 0 := by
  simp only [malloc, if_neg hsz] at ht
  by_cases hf : s.free_start = 0
  · rw [if_pos (by rw [malloc_init_free_start]; exact hf)] at ht
    have := congrArg (fun o => o.map Prod.snd) ht
    simp only [Option.map_some', malloc_fresh_snd, Option.some.injEq] at this
    omega
  · rw [if_neg (by rw [malloc_init_free_start]; exact hf), malloc_init_of_ne s (hinit hf)] at ht
    cases hs : malloc_search size s.mem fuel s.free_start 0 0 with
    | none => rw [hs] at ht; cases ht
    | some r =>
      rw [hs] at ht
      obtain ⟨h1, h2⟩ := malloc_search_exit size s.mem s.free_start fuel s.free_start 0 0 r
        (fun h => InRegistry.head h) (fun h => absurd rfl h) (fun h => absurd h hf) hs
      obtain ⟨c, q, pf⟩ := r
      have := congrArg (fun o => o.map Prod.snd) ht
      simp only [Option.map_some', malloc_finish, Option.some.injEq] at this h1 h2
      split_ifs at this with hc hp
      · rw [malloc_take_snd] at this; simp only [sizeof_metadata_t] at this; omega
      · rw [malloc_extend_snd] at this
        have := hreg q (h2 hp)
        omega
      · exact absurd h1 (by simp only [ne_eq, not_not] at hc hp; simp [hc, hp])

/-- Null result iff zero size, where the free-list sizes are below the break: `malloc(0)`
returns `NULL` and leaves the state as it is; for `size > 0` no `NULL` is returned, and a pointer is returned whenever the free list
is empty or the fuel is enough to walk it to its end; the loop never stops with both
`curr` and `prev` null, so the `return NULL` of line 183 is not reached.  The state is any
state in which a non-empty free list implies an initialised heap and the blocks of the
free list have a size below the break. -/
theorem malloc_null_iff_zero (fuel : Nat) (s : State) (size : Nat)
    (hinit : s.free_start ≠ 0 → s.start_of_heap ≠ 0)
    (hreg : ∀ h, InRegistry s.mem s.free_start h → get_size s.mem h < s.brk) :
    malloc fuel s 0 = some (s, 0) ∧
    ((∃ t, malloc fuel s size = some (t, 0)) ↔ size = 0) ∧
    (size ≠ 0 → (s.free_start = 0 ∨ ∃ l, print_free fuel s = some l) →
      ∃ t p, malloc fuel s size = some (t, p) ∧ p ≠ 0) ∧
    (∀ r, (malloc_init s).free_start ≠ 0 →
      malloc_search size (malloc_init s).mem fuel (malloc_init s).free_start 0 0 = some r →
      r.1 ≠ 0 ∨ r.2.1 ≠ 0) := by
  refine ⟨by simp only [malloc, if_true], ⟨?_, ?_⟩, ?_, ?_⟩
  · rintro ⟨t, ht⟩
    by_contra hsz
    exact malloc_ne_null fuel s size hsz hinit hreg t 0 ht rfl
  · intro h; subst h; exact ⟨s, by simp only [malloc, if_true]⟩
  · intro hsz hfin
    have hret : ∃ r, malloc fuel s size = some r := by
      by_cases hf : s.free_start = 0
      · exact ⟨_, malloc_of_empty fuel s size hsz hf⟩
      · obtain ⟨l, hl⟩ := hfin.resolve_left hf
        obtain ⟨r, hr⟩ := malloc_search_returns size s.mem fuel s.free_start 0 0 l hl
        refine ⟨malloc_finish s size r, ?_⟩
        simp only [malloc, if_neg hsz, malloc_init_of_ne s (hinit hf), if_neg hf, hr,
          Option.map_some']
    obtain ⟨⟨t, p⟩, hr⟩ := hret
    exact ⟨t, p, hr, malloc_ne_null fuel s size hsz hinit hreg t p hr⟩
  · intro r hf hs
    exact (malloc_search_exit size _ _ fuel _ 0 0 r (fun h => InRegistry.head h)
      (fun h => absurd rfl h) (fun h => absurd h hf) hs).1

theorem example_state_registry (h : Nat)
    (hh : InRegistry example_state.mem example_state.free_start h) : h = 4120 := by
  induction hh with
  | head _ => decide!
  | next _ hne ih =>
    subst ih
    exact absurd (by decide! : get_next_free example_state.mem 4120 = 0) hne

/-- Witness of `malloc_null_iff_zero`: `example_state` (its free list is the one block at
4120, of size 16) and the request 100, which grows that block. -/
theorem malloc_null_iff_zero_witness :
    (example_state.free_start ≠ 0 → example_state.start_of_heap ≠ 0) ∧
    (∀ h, InRegistry example_state.mem example_state.free_start h →
      get_size example_state.mem h < example_state.brk) ∧
    malloc 9 example_state 0 = some (example_state, 0) ∧
    ((∃ t, malloc 9 example_state 100 = some (t, 0)) ↔ 100 = 0) ∧
    (100 ≠ 0 → (example_state.free_start = 0 ∨ ∃ l, print_free 9 example_state = some l) →
      ∃ t p, malloc 9 example_state 100 = some (t, p) ∧ p ≠ 0) ∧
    (∀ r, (malloc_init example_state).free_start ≠ 0 →
      malloc_search 100 (malloc_init example_state).mem 9
        (malloc_init example_state).free_start 0 0 = some r →
      r.1 ≠ 0 ∨ r.2.1 ≠ 0) :=
  ⟨fun _ => by decide!,
    fun h hh => by rw [example_state_registry h hh]; decide!,
    malloc_null_iff_zero 9 example_state 100 (fun _ => by decide!)
      (fun h hh => by rw [example_state_registry h hh]; decide!)⟩

set_option synthInstance.maxSize 2000 in
/-- C8 (the code fails the claim). On a fresh heap, `a = malloc(1)`, `b = malloc(56)`,
`free(a)`, `free(b)`, `c = malloc(56)`: `free(b)` merges `b` into `a` and then links the
merged-away header 4145 into the free list (line 243), and `malloc(56)` splits the merged
block, so `c = 4144` is a live block of 56 bytes whose payload holds the free-list header
4145; the free list is 4200 (size 1), 4145 (size 56).  The caller stores the 4-byte
value 4225, the break, at `c + 1`, inside its payload, and calls `malloc(5000)`: no block
fits, the last block 4145 is grown, and lines 173-174 return the old break minus the old
size, `4225 - 4225 = NULL`, for a size that is not 0 (the break has moved to 5000). -/
theorem malloc_null_for_nonzero_size :
    (do
      let (s, a) ← malloc 9 (init 4096) 1
      let (s, b) ← malloc 9 s 56
      let s ← free 9 s a
      let s ← free 9 s b
      let (s, c) ← malloc 9 s 56
      let u : State := { s with mem := wrLE s.mem (c + 1) 4225 4 }
      let (t, r) ← malloc 9 u 5000
      pure ([c, get_is_used s.mem (c - 24), get_size s.mem (c - 24), s.brk, r, t.brk],
        [print_free 9 s, print_free 9 u]))
    = some ([4144, 1, 56, 4225, 0, 5000],
        [some [(4200, 1, 0), (4145, 56, 0)], some [(4200, 1, 0), (4145, 4225, 0)]]) := by
  decide!

/-! ## C9, C10: resize -/

theorem rdLE_store_bytes_disj (m : Mem) (a k p n : Nat) (P : Nat → Nat)
    (h : p + n ≤ a ∨ a + k ≤ p) : rdLE (store_bytes m p n P) a k = rdLE m a k :=
  rdLE_congr _ _ _ _ (fun x _ _ => by
    have : ¬(p ≤ x ∧ x < p + n) := by omega
    simp only [store_bytes, if_neg this])

theorem rdLE_memcpy_disj (m : Mem) (a k dst src n : Nat)
    (h : dst + n ≤ a ∨ a + k ≤ dst) : rdLE (memcpy m dst src n) a k = rdLE m a k :=
  rdLE_congr _ _ _ _ (fun x _ _ => by
    have : ¬(dst ≤ x ∧ x < dst + n) := by omega
    simp only [memcpy, if_neg this])

theorem memcpy_inside (m : Mem) (dst src n x : Nat) (h : dst ≤ x ∧ x < dst + n) :
    memcpy m dst src n x = m (src + (x - dst)) := by
  simp only [memcpy, if_pos h]

theorem store_bytes_inside (m : Mem) (p n x : Nat) (P : Nat → Nat) (h : p ≤ x ∧ x < p + n) :
    store_bytes m p n P x = P (x - p) % 256 := by
  simp only [store_bytes, if_pos h]

/-- C9. Resize growth preserves the prefix: on a fresh heap at `b`, for `0 < n < m < 2^32`
and any bytes `P`, after `p = malloc(n)`, storing `P` in the `n` bytes at `p`, and
`q = realloc(p, m)`, all calls return, the first `n` bytes at `q` are `P`, the header of `q`
is in use with size `m`, and the header of `p` is free. -/
theorem resize_growth_preserves_prefix (b n m f : Nat) (P : Nat → Nat) (hb : 0 < b)
    (hn : 0 < n) (hnm : n < m) (hm : m < 2 ^ 32) :
    ∃ t p q,
      (do
        let (s, p) ← malloc f (init b) n
        let (t, q) ← realloc f { s with mem := store_bytes s.mem p n P } p m
        pure (t, p, q)) = some (t, p, q) ∧
      (∀ i, i < n → t.mem (q + i) = P i % 256) ∧
      get_is_used t.mem (q - sizeof_metadata_t) = 1 ∧
      get_size t.mem (q - sizeof_metadata_t) = m ∧
      get_is_used t.mem (p - sizeof_metadata_t) = 0 := by
  have hn63 : n < 2 ^ 63 := by omega
  have hm63 : m < 2 ^ 63 := by omega
  simp (disch := omega) only [malloc, malloc_init, malloc_fresh, sbrk_small, init,
    sizeof_metadata_t, ↓reduceIte, nat_eq_false, Option.bind_eq_bind, Option.some_bind]
  simp (disch := omega) only [realloc, realloc_move, malloc, malloc_init, malloc_fresh, sbrk_small,
    free, sizeof_metadata_t,
    get_is_used, get_next, get_size, get_next_free, set_is_used, set_next, set_size, set_next_free,
    rdLE_wrLE_eq, rdLE_wrLE_disj, rdLE_zero, rdLE_store_bytes_disj, rdLE_memcpy_disj,
    Nat.reducePow, Nat.reduceMod, Nat.mod_eq_of_lt,
    Option.bind_eq_bind, Option.some_bind, Option.map_some', ↓reduceIte, Nat.add_sub_cancel,
    nat_eq_false, nat_eq_true, nat_le_true, nat_lt_true, nat_lt_false, nat_le_false,
    ne_eq, not_true_eq_false, not_false_eq_true, and_true, true_and, ge_iff_le, gt_iff_lt,
    and_false, false_and, Nat.zero_mod, Option.pure_def]
  refine ⟨_, _, _, rfl, ?_, ?_, ?_, ?_⟩
  · intro i hi
    simp (disch := omega) only [wrLE_outside, memcpy_inside, store_bytes_inside,
      Nat.add_sub_cancel_left]
  all_goals
    simp (disch := omega) only [rdLE_wrLE_eq, rdLE_wrLE_disj, rdLE_zero, rdLE_store_bytes_disj,
      rdLE_memcpy_disj, Nat.reducePow, Nat.reduceMod, Nat.mod_eq_of_lt, Nat.add_sub_cancel]

/-- Witness of `resize_growth_preserves_prefix`: heap at 4096, `n = 8`, `m = 64`, the
pattern `1, 2, ..., 8`. -/
theorem resize_growth_preserves_prefix_witness :
    0 < 4096 ∧ 0 < 8 ∧ 8 < 64 ∧ 64 < 2 ^ 32 ∧
    ∃ t p q,
      (do
        let (s, p) ← malloc 0 (init 4096) 8
        let (t, q) ← realloc 0 { s with mem := store_bytes s.mem p 8 (fun i => i + 1) } p 64
        pure (t, p, q)) = some (t, p, q) ∧
      (∀ i, i < 8 → t.mem (q + i) = (fun i => i + 1) i % 256) ∧
      get_is_used t.mem (q - sizeof_metadata_t) = 1 ∧
      get_size t.mem (q - sizeof_metadata_t) = 64 ∧
      get_is_used t.mem (p - sizeof_metadata_t) = 0 :=
  ⟨by decide, by decide, by decide, by decide,
    resize_growth_preserves_prefix 4096 8 64 0 (fun i => i + 1) (by decide) (by decide)
      (by decide) (by decide)⟩

/-- C10. Resize without growth is the identity: for a non-null `p` whose header stores a
size of at least `new_size > 0`, `realloc(p, new_size)` returns `p` and the state it was
called in. -/
theorem realloc_no_growth (fuel : Nat) (s : State) (p new_size : Nat) (hp : p ≠ 0)
    (h0 : 0 < new_size) (hle : new_size ≤ get_size s.mem (p - sizeof_metadata_t)) :
    realloc fuel s p new_size = some (s, p) := by
  have hne : new_size ≠ 0 := by omega
  simp only [realloc, if_neg hp, if_neg hne, ge_iff_le, if_pos hle]

/-- Witness of `realloc_no_growth`: in `example_state` the block at 4184 has size 16. -/
theorem realloc_no_growth_witness :
    4184 ≠ 0 ∧ 0 < 8 ∧ 8 ≤ get_size example_state.mem (4184 - sizeof_metadata_t) ∧
    realloc 0 example_state 4184 8 = some (example_state, 4184) :=
  ⟨by decide, by decide, by decide!,
    realloc_no_growth 0 example_state 4184 8 (by decide) (by decide) (by decide!)⟩

/-! ## C11: the degenerate cases of `realloc` -/

/-- C11. Resize degenerate cases: for every state, fuel and size `n`, `realloc(NULL, n)`
is the call `malloc(n)` (same result pointer, same state, and it returns exactly when
`malloc` does), and for every `p ≠ NULL`, `realloc(p, 0)` is the call `free(p)` followed
by the result `NULL`. -/
theorem realloc_degenerate (fuel : Nat) (s : State) (n p : Nat) (hp : p ≠ 0) :
    realloc fuel s 0 n = malloc fuel s n ∧
    realloc fuel s p 0 = (free fuel s p).map (fun t => (t, 0)) := by
  constructor
  · simp only [realloc, if_true]
  · simp only [realloc, if_neg hp, if_true]

/-- Witness of `realloc_degenerate`: the state `example_state`, `n = 100`, and the payload
pointer 4184 of its in-use block. -/
theorem realloc_degenerate_witness :
    4184 ≠ 0 ∧
    realloc 9 example_state 0 100 = malloc 9 example_state 100 ∧
    realloc 9 example_state 4184 0 = (free 9 example_state 4184).map (fun t => (t, 0)) :=
  ⟨by decide, realloc_degenerate 9 example_state 100 4184 (by decide)⟩

/-! ## Free lists as lists of headers -/

theorem lastD_append_singleton (d x : Nat) (L : List Nat) : lastD d (L ++ [x]) = x := by
  induction L generalizing d with
  | nil => rfl
  | cons g L ih => exact ih g

theorem lastD_of_getLast (d q : Nat) (L : List Nat) (h : L.getLast? = some q) :
    lastD d L = q := by
  induction L generalizing d with
  | nil => simp at h
  | cons g L ih =>
    cases L with
    | nil => simp at h; simpa [lastD] using h
    | cons g' L' =>
      rw [List.getLast?_cons_cons] at h
      exact ih g h

theorem lastD_mem (d : Nat) (L : List Nat) (h : L ≠ []) : lastD d L ∈ L := by
  induction L generalizing d with
  | nil => exact absurd rfl h
  | cons g L ih =>
    cases L with
    | nil => simp [lastD]
    | cons g' L' => exact List.mem_cons_of_mem _ (ih g (by simp))

theorem getLast_lastD (d : Nat) : ∀ (L : List Nat), L ≠ [] → L.getLast? = some (lastD d L) := by
  intro L
  induction L generalizing d with
  | nil => intro h; exact absurd rfl h
  | cons a L ih =>
    intro _
    cases L with
    | nil => rfl
    | cons b t =>
      have := ih a (List.cons_ne_nil _ _)
      rw [List.getLast?_cons_cons, this]
      rfl

theorem reglist_pred (m : Mem) (b : Nat) (post : List Nat) :
    ∀ (pre : List Nat) (h d : Nat), RegList m h (pre ++ b :: post) → pre ≠ [] →
      get_next_free m (lastD d pre) = b := by
  intro pre
  induction pre with
  | nil => intro h d _ hne; exact absurd rfl hne
  | cons g pre ih =>
    intro h d hL _
    obtain ⟨_, _, hL'⟩ := hL
    cases pre with
    | nil => exact hL'.1
    | cons g' pre' => exact ih _ g hL' (by simp)

theorem reglist_ne_zero (m : Mem) :
    ∀ (L : List Nat) (h : Nat), RegList m h L → ∀ g ∈ L, g ≠ 0 := by
  intro L
  induction L with
  | nil => intro h _ g hg; cases hg
  | cons x L ih =>
    intro h hL g hg
    obtain ⟨_, hx, hL'⟩ := hL
    rcases List.mem_cons.mp hg with rfl | hg'
    · exact hx
    · exact ih _ hL' g hg'

theorem reglist_last (m : Mem) (last : Nat) :
    ∀ (pre : List Nat) (h : Nat), RegList m h (pre ++ [last]) → get_next_free m last = 0 := by
  intro pre
  induction pre with
  | nil => intro h hL; exact hL.2.2
  | cons g pre ih => intro h hL; exact ih _ hL.2.2

theorem reglist_drop_last (m m' : Mem) (last : Nat) :
    ∀ (pre : List Nat) (h : Nat), RegList m h (pre ++ [last]) →
      (pre ++ [last]).Pairwise (fun x y => x ≠ y) →
      (∀ g ∈ pre, g ≠ lastD 0 pre → get_next_free m' g = get_next_free m g) →
      (pre ≠ [] → get_next_free m' (lastD 0 pre) = 0) →
      RegList m' (if pre = [] then 0 else h) pre := by
  intro pre
  induction pre with
  | nil => intro h _ _ _ _; rfl
  | cons g pre ih =>
    intro h hL hpw hkeep hzero
    obtain ⟨h1, h2, h3⟩ := hL
    rw [List.cons_append, List.pairwise_cons] at hpw
    simp only [if_neg (List.cons_ne_nil g pre)]
    refine ⟨h1, h2, ?_⟩
    by_cases hpre : pre = []
    · subst hpre
      have := hzero (List.cons_ne_nil _ _)
      simp only [lastD] at this
      rw [this]
      rfl
    · have hmem : lastD g pre ∈ pre := by
        have := lastD_mem g pre hpre
        exact this
      have hgne : g ≠ lastD g pre := hpw.1 _ (List.mem_append_left _ hmem)
      have hlast : ∀ d, lastD d pre = lastD g pre := by
        intro d
        cases pre with
        | nil => exact absurd rfl hpre
        | cons a t => rfl
      have hk := hkeep g (List.mem_cons_self _ _) (by simpa only [lastD] using hgne)
      have := ih (get_next_free m g) h3 hpw.2
        (fun x hx hne => hkeep x (List.mem_cons_of_mem _ hx)
          (by simp only [lastD]; rw [← hlast 0]; exact hne))
        (fun _ => by
          have := hzero (List.cons_ne_nil _ _)
          simp only [lastD] at this
          rw [hlast 0]; exact this)
      rw [if_neg hpre] at this
      rw [hk]
      exact this

theorem first_fit_split (m : Mem) (req : Nat) :
    ∀ L : List Nat, (∀ g ∈ L, get_size m g < req) ∨
      ∃ pre b post, L = pre ++ b :: post ∧ (∀ g ∈ pre, get_size m g < req) ∧
        req ≤ get_size m b := by
  intro L
  induction L with
  | nil => left; intro g hg; cases hg
  | cons x L ih =>
    by_cases hx : req ≤ get_size m x
    · right
      exact ⟨[], x, L, rfl, fun g hg => absurd hg (List.not_mem_nil g), hx⟩
    · rcases ih with h | ⟨pre, b, post, h1, h2, h3⟩
      · left
        intro g hg
        rcases List.mem_cons.mp hg with rfl | hg'
        · omega
        · exact h g hg'
      · right
        refine ⟨x :: pre, b, post, by rw [h1]; rfl, ?_, h3⟩
        intro g hg
        rcases List.mem_cons.mp hg with rfl | hg'
        · omega
        · exact h2 g hg'

theorem malloc_search_finds (req : Nat) (m : Mem) (b : Nat) (post : List Nat) :
    ∀ (pre : List Nat) (fuel h prev pf : Nat),
      RegList m h (pre ++ b :: post) → (∀ g ∈ pre, get_size m g < req) →
      req ≤ get_size m b → pre.length < fuel →
      ∃ pf', malloc_search req m fuel h prev pf = some (b, lastD prev pre, pf') := by
  intro pre
  induction pre with
  | nil =>
    intro fuel h prev pf hL _ hfit hfuel
    obtain ⟨rfl, hb, _⟩ := hL
    obtain ⟨k, rfl⟩ : ∃ k, fuel = k + 1 := ⟨fuel - 1, by simp at hfuel; omega⟩
    exact ⟨pf, by simp only [malloc_search, if_neg hb, ge_iff_le, if_pos hfit, lastD]⟩
  | cons g pre ih =>
    intro fuel h prev pf hL hsmall hfit hfuel
    obtain ⟨rfl, hg, hL'⟩ := hL
    obtain ⟨k, rfl⟩ : ∃ k, fuel = k + 1 := ⟨fuel - 1, by simp at hfuel; omega⟩
    have hlt : ¬ req ≤ get_size m h := by
      have := hsmall h (List.mem_cons_self _ _); omega
    obtain ⟨pf', hr⟩ := ih k (get_next_free m h) h prev hL'
      (fun x hx => hsmall x (List.mem_cons_of_mem _ hx)) hfit (by simp at hfuel; omega)
    exact ⟨pf', by simp only [malloc_search, if_neg hg, ge_iff_le, if_neg hlt, hr, lastD]⟩

theorem malloc_search_exhausts (req : Nat) (m : Mem) :
    ∀ (L : List Nat) (fuel h prev pf : Nat),
      RegList m h L → (∀ g ∈ L, get_size m g < req) → L.length < fuel →
      ∃ pf', malloc_search req m fuel h prev pf = some (0, lastD prev L, pf') ∧
        ∀ pre x, L = pre ++ [x] → pf' = lastD prev pre := by
  intro L
  induction L with
  | nil =>
    intro fuel h prev pf hL _ hfuel
    have h0 : h = 0 := hL
    subst h0
    obtain ⟨k, rfl⟩ : ∃ k, fuel = k + 1 := ⟨fuel - 1, by simp at hfuel; omega⟩
    refine ⟨pf, by simp only [malloc_search, if_true, lastD], ?_⟩
    intro pre x hx
    simp at hx
  | cons g L ih =>
    intro fuel h prev pf hL hsmall hfuel
    obtain ⟨rfl, hg, hL'⟩ := hL
    obtain ⟨k, rfl⟩ : ∃ k, fuel = k + 1 := ⟨fuel - 1, by simp at hfuel; omega⟩
    have hlt : ¬ req ≤ get_size m h := by
      have := hsmall h (List.mem_cons_self _ _); omega
    obtain ⟨pf', hr, hpf⟩ := ih k (get_next_free m h) h prev hL'
      (fun x hx => hsmall x (List.mem_cons_of_mem _ hx)) (by simp at hfuel; omega)
    refine ⟨pf', by simp only [malloc_search, if_neg hg, ge_iff_le, if_neg hlt, hr, lastD], ?_⟩
    intro pre x hx
    cases pre with
    | nil =>
      simp at hx
      obtain ⟨rfl, rfl⟩ := hx
      -- L = [], so the recursive call stopped at once with prev_free = prev
      have hn : get_next_free m h = 0 := hL'
      cases k with
      | zero => simp [malloc_search] at hr
      | succ k =>
        simp only [malloc_search, hn, if_true, Option.some.injEq, Prod.mk.injEq] at hr
        simp only [lastD]
        exact hr.2.2.symm
    | cons g' pre' =>
      simp only [List.cons_append, List.cons.injEq] at hx
      obtain ⟨rfl, rfl⟩ := hx
      simp only [lastD]
      exact hpf pre' x rfl

theorem malloc_search_cycle (req : Nat) (m : Mem) (c : Nat) (hc : c ≠ 0)
    (hsz : get_size m c < req) (hloop : get_next_free m c = c) :
    ∀ fuel prev pf, malloc_search req m fuel c prev pf = none := by
  intro fuel
  induction fuel with
  | zero => intro prev pf; rfl
  | succ k ih =>
    intro prev pf
    simp only [malloc_search, if_neg hc, ge_iff_le, if_neg (Nat.not_le.mpr hsz), hloop]
    exact ih c prev

/-! ## The first-fit path, field by field -/

theorem get_size_lt (m : Mem) (h : Nat) : get_size m h < 2 ^ 32 := by
  have := rdLE_lt m h 4
  simpa [get_size] using this

theorem get_next_lt (m : Mem) (h : Nat) : get_next m h < 2 ^ 64 := by
  have := rdLE_lt m (h + 16) 8
  simpa [get_next] using this

theorem get_next_free_lt (m : Mem) (h : Nat) : get_next_free m h < 2 ^ 64 := by
  have := rdLE_lt m (h + 8) 8
  simpa [get_next_free] using this

theorem int_as_size_t_small (x : Nat) (h : x < 2 ^ 31) : int_as_size_t x = x := by
  have h1 : x % 2 ^ 32 = x := Nat.mod_eq_of_lt (by omega)
  simp only [int_as_size_t, h1, if_pos h]

theorem int_as_size_t_gt (x : Nat) (h : x < 2 ^ 32) :
    (sizeof_metadata_t < int_as_size_t x) = (24 < x) := by
  have h1 : x % 2 ^ 32 = x := Nat.mod_eq_of_lt h
  simp only [int_as_size_t, h1, sizeof_metadata_t]
  split_ifs with h2
  · rfl
  · apply propext
    constructor <;> intro _ <;> omega

theorem int_as_size_t_sub (x : Nat) (h : x < 2 ^ 32) (h24 : 24 < x) :
    (int_as_size_t x - 24) % 2 ^ 32 = x - 24 := by
  have h1 : x % 2 ^ 32 = x := Nat.mod_eq_of_lt h
  simp only [int_as_size_t, h1]
  split_ifs with h2
  · exact Nat.mod_eq_of_lt (by omega)
  · omega

theorem malloc_first_fit (fuel : Nat) (s : State) (req b : Nat) (pre post : List Nat)
    (hst : s.start_of_heap ≠ 0)
    (hL : RegList s.mem s.free_start (pre ++ b :: post))
    (hsmall : ∀ g ∈ pre, get_size s.mem g < req) (hfit : req ≤ get_size s.mem b)
    (hreq : 0 < req) (hfuel : pre.length < fuel) :
    malloc fuel s req = some (malloc_take s req b (lastD 0 pre)) ∧ b ≠ 0 := by
  have hf : s.free_start ≠ 0 := by
    cases pre with
    | nil => obtain ⟨h1, h2, _⟩ := hL; rw [h1]; exact h2
    | cons g pre => obtain ⟨h1, h2, _⟩ := hL; rw [h1]; exact h2
  have hb : b ≠ 0 := by
    clear hsmall hfuel hf
    induction pre generalizing s with
    | nil => exact hL.2.1
    | cons g pre ih =>
      obtain ⟨_, _, h3⟩ := hL
      exact ih { s with free_start := get_next_free s.mem g } hst h3 hfit
  obtain ⟨pf', hr⟩ := malloc_search_finds req s.mem b post pre fuel s.free_start 0 0 hL hsmall
    hfit hfuel
  refine ⟨?_, hb⟩
  simp only [malloc, if_neg (by omega : ¬ req = 0), malloc_init_of_ne s hst, if_neg hf, hr,
    Option.map_some', malloc_finish, ne_eq, hb, not_false_eq_true, if_true]

theorem malloc_take_split (s : State) (req b P : Nat)
    (hreq : req ≤ get_size s.mem b) (h24 : 24 < get_size s.mem b - req)
    (hP : P = 0 ∨ P + 24 ≤ b ∨ b + 24 + get_size s.mem b ≤ P)
    (h64 : b + 24 + req < 2 ^ 64) :
    get_is_used (malloc_take s req b P).1.mem b = 1 ∧
    get_size (malloc_take s req b P).1.mem b = req ∧
    get_next_free (malloc_take s req b P).1.mem b = 0 ∧
    get_next (malloc_take s req b P).1.mem b = b + 24 + req ∧
    get_is_used (malloc_take s req b P).1.mem (b + 24 + req) = 0 ∧
    get_size (malloc_take s req b P).1.mem (b + 24 + req) = get_size s.mem b - req - 24 ∧
    get_next (malloc_take s req b P).1.mem (b + 24 + req) = get_next s.mem b ∧
    get_next_free (malloc_take s req b P).1.mem (b + 24 + req) = get_next_free s.mem b ∧
    (P = 0 → (malloc_take s req b P).1.free_start = b + 24 + req) ∧
    (P ≠ 0 → get_next_free (malloc_take s req b P).1.mem P = b + 24 + req ∧
      (malloc_take s req b P).1.free_start = s.free_start) := by
  have hlt := get_size_lt s.mem b
  have hn := get_next_lt s.mem b
  have hnf := get_next_free_lt s.mem b
  have hgt : (sizeof_metadata_t < int_as_size_t (get_size s.mem b - req)) = True := by
    rw [int_as_size_t_gt _ (by omega)]; exact eq_true h24
  have hsub := int_as_size_t_sub (get_size s.mem b - req) (by omega) h24
  simp only [get_size, get_next, get_next_free, sizeof_metadata_t] at hlt hn hnf hsub hP hreq h24 hgt
  simp only [Nat.reducePow] at hlt hn hnf hsub
  by_cases hP0 : P = 0
  · subst hP0
    simp (disch := omega) only [malloc_take, get_size_set_is_used, hgt, gt_iff_lt, ↓reduceIte,
      ne_eq, not_true_eq_false, sizeof_metadata_t,
      get_is_used, get_next, get_size, get_next_free, set_is_used, set_next, set_size,
      set_next_free, rdLE_wrLE_eq, rdLE_wrLE_disj, Nat.reducePow, Nat.reduceMod,
      Nat.mod_eq_of_lt, Nat.zero_mod, hsub, true_and, and_true, forall_true_left,
      IsEmpty.forall_iff]
  · have hP' : P + 24 ≤ b ∨ b + 24 + rdLE s.mem b 4 ≤ P := hP.resolve_left hP0
    simp (disch := omega) only [malloc_take, get_size_set_is_used, hgt, gt_iff_lt, ↓reduceIte,
      ne_eq, hP0, not_false_eq_true, sizeof_metadata_t,
      get_is_used, get_next, get_size, get_next_free, set_is_used, set_next, set_size,
      set_next_free, rdLE_wrLE_eq, rdLE_wrLE_disj, Nat.reducePow, Nat.reduceMod,
      Nat.mod_eq_of_lt, Nat.zero_mod, hsub, true_and, and_true, forall_true_left,
      IsEmpty.forall_iff]

theorem malloc_take_nosplit (s : State) (req b P : Nat)
    (h24 : get_size s.mem b - req ≤ 24)
    (hP : P = 0 ∨ P + 24 ≤ b ∨ b + 24 ≤ P) :
    get_is_used (malloc_take s req b P).1.mem b = 1 ∧
    get_size (malloc_take s req b P).1.mem b = get_size s.mem b ∧
    get_next (malloc_take s req b P).1.mem b = get_next s.mem b ∧
    get_next_free (malloc_take s req b P).1.mem b = 0 ∧
    (malloc_take s req b P).1.free_start = s.free_start ∧
    (P ≠ 0 → get_next_free (malloc_take s req b P).1.mem P = get_next_free s.mem b) := by
  have hlt := get_size_lt s.mem b
  have hnf := get_next_free_lt s.mem b
  have hgt : (sizeof_metadata_t < int_as_size_t (get_size s.mem b - req)) = False := by
    rw [int_as_size_t_gt _ (by omega)]; exact eq_false (by omega)
  simp only [get_size, get_next, get_next_free, sizeof_metadata_t] at hlt hnf hP h24 hgt
  simp only [Nat.reducePow] at hlt hnf
  by_cases hP0 : P = 0
  · subst hP0
    simp (disch := omega) only [malloc_take, get_size_set_is_used, hgt, gt_iff_lt, ↓reduceIte,
      ne_eq, not_true_eq_false, sizeof_metadata_t,
      get_is_used, get_next, get_size, get_next_free, set_is_used, set_next, set_size,
      set_next_free, rdLE_wrLE_eq, rdLE_wrLE_disj, Nat.reducePow, Nat.reduceMod,
      Nat.mod_eq_of_lt, Nat.zero_mod, true_and, and_true, forall_true_left,
      IsEmpty.forall_iff]
  · have hP' : P + 24 ≤ b ∨ b + 24 ≤ P := hP.resolve_left hP0
    simp (disch := omega) only [malloc_take, get_size_set_is_used, hgt, gt_iff_lt, ↓reduceIte,
      ne_eq, hP0, not_false_eq_true, sizeof_metadata_t,
      get_is_used, get_next, get_size, get_next_free, set_is_used, set_next, set_size,
      set_next_free, rdLE_wrLE_eq, rdLE_wrLE_disj, Nat.reducePow, Nat.reduceMod,
      Nat.mod_eq_of_lt, Nat.zero_mod, true_and, and_true, forall_true_left,
      IsEmpty.forall_iff]

theorem malloc_take_footprint (s : State) (req b P x : Nat)
    (hb : x < b ∨ b + 24 ≤ x)
    (hr : 24 < get_size s.mem b - req → x < b + 24 + req ∨ b + 48 + req ≤ x)
    (hP : x < P + 8 ∨ P + 16 ≤ x) :
    (malloc_take s req b P).1.mem x = s.mem x := by
  have hlt := get_size_lt s.mem b
  have hgt := int_as_size_t_gt (get_size s.mem b - req) (by omega)
  unfold malloc_take
  simp only [get_size_set_is_used, gt_iff_lt, hgt]
  by_cases h : 24 < get_size s.mem b - req
  · have := hr h
    simp only [if_pos h]
    split_ifs <;>
      simp (disch := omega) only [sizeof_metadata_t, set_is_used, set_next, set_size,
        set_next_free, wrLE_outside]
  · simp only [if_neg h]
    split_ifs <;>
      simp (disch := omega) only [sizeof_metadata_t, set_is_used, set_next, set_size,
        set_next_free, wrLE_outside]

theorem malloc_take_frame (s : State) (req b P a k : Nat)
    (hb : a + k ≤ b ∨ b + 24 ≤ a)
    (hr : 24 < get_size s.mem b - req → a + k ≤ b + 24 + req ∨ b + 48 + req ≤ a)
    (hP : a + k ≤ P + 8 ∨ P + 16 ≤ a) :
    rdLE (malloc_take s req b P).1.mem a k = rdLE s.mem a k :=
  rdLE_congr _ _ _ _ (fun x h1 h2 => malloc_take_footprint s req b P x (by omega)
    (fun h => by have := hr h; omega) (by omega))

theorem malloc_take_used (s : State) (req b P : Nat) (hP : P = 0 ∨ P + 24 ≤ b ∨ b + 24 ≤ P) :
    get_is_used (malloc_take s req b P).1.mem b = 1 := by
  unfold malloc_take
  dsimp only
  by_cases hP0 : P = 0
  · subst hP0
    simp only [ne_eq, not_true_eq_false, ↓reduceIte]
    split_ifs <;>
      simp (disch := omega) only [sizeof_metadata_t, get_is_used, set_is_used, set_next,
        set_size, set_next_free, rdLE_wrLE_eq, rdLE_wrLE_disj, Nat.reducePow, Nat.reduceMod]
  · have hP' := hP.resolve_left hP0
    simp only [ne_eq, hP0, not_false_eq_true, ↓reduceIte]
    split_ifs <;>
      simp (disch := omega) only [sizeof_metadata_t, get_is_used, set_is_used, set_next,
        set_size, set_next_free, rdLE_wrLE_eq, rdLE_wrLE_disj, Nat.reducePow, Nat.reduceMod]

theorem pred_apart (s : State) (req b : Nat) (pre post : List Nat)
    (hdisj : ∀ x ∈ pre ++ b :: post, ∀ y ∈ pre ++ b :: post,
      x = y ∨ x + 24 + get_size s.mem x ≤ y ∨ y + 24 + get_size s.mem y ≤ x)
    (hsmall : ∀ g ∈ pre, get_size s.mem g < req) (hfit : req ≤ get_size s.mem b) :
    lastD 0 pre = 0 ∨ lastD 0 pre + 24 ≤ b ∨ b + 24 + get_size s.mem b ≤ lastD 0 pre := by
  cases hpre : pre with
  | nil => exact Or.inl rfl
  | cons g pre' =>
    have hm : lastD 0 pre ∈ pre := lastD_mem 0 pre (by rw [hpre]; simp)
    have hbL : b ∈ pre ++ b :: post := List.mem_append_right _ (List.mem_cons_self _ _)
    rw [hpre] at hm
    rw [← hpre]
    rcases hdisj _ (List.mem_append_left _ (hpre ▸ hm)) b hbL with h | h
    · have := hsmall _ (hpre ▸ hm)
      rw [h] at this
      omega
    · right; omega

theorem malloc_take_size (s : State) (req b P : Nat) (hreq : req ≤ get_size s.mem b)
    (hP : P = 0 ∨ P + 16 ≤ b ∨ b + 4 ≤ P + 8) :
    get_size (malloc_take s req b P).1.mem b
      = if 24 < get_size s.mem b - req then req else get_size s.mem b := by
  have hlt := get_size_lt s.mem b
  have hgt := int_as_size_t_gt (get_size s.mem b - req) (by omega)
  unfold malloc_take
  simp only [get_size_set_is_used, gt_iff_lt, hgt]
  by_cases h : 24 < get_size s.mem b - req
  · simp only [if_pos h]
    simp only [get_size] at hlt hreq
    by_cases hP0 : P = 0
    · simp (disch := omega) only [hP0, ne_eq, not_true_eq_false, ↓reduceIte, sizeof_metadata_t,
        get_size, set_is_used, set_next, set_size, set_next_free, rdLE_wrLE_disj, rdLE_wrLE_same,
        Nat.reducePow, Nat.mod_eq_of_lt]
    · have := hP.resolve_left hP0
      simp (disch := omega) only [hP0, ne_eq, not_false_eq_true, ↓reduceIte, sizeof_metadata_t,
        get_size, set_is_used, set_next, set_size, set_next_free, rdLE_wrLE_disj, rdLE_wrLE_same,
        Nat.reducePow, Nat.mod_eq_of_lt]
  · simp only [if_neg h]
    by_cases hP0 : P = 0
    · simp (disch := omega) only [hP0, ne_eq, not_true_eq_false, ↓reduceIte, sizeof_metadata_t,
        get_size, set_is_used, set_next, set_size, set_next_free, rdLE_wrLE_disj]
    · have := hP.resolve_left hP0
      simp (disch := omega) only [hP0, ne_eq, not_false_eq_true, ↓reduceIte, sizeof_metadata_t,
        get_size, set_is_used, set_next, set_size, set_next_free, rdLE_wrLE_disj]

theorem pred_sep (m : Mem) (req b : Nat) (pre post : List Nat)
    (hsep : ∀ x ∈ pre ++ b :: post, ∀ y ∈ pre ++ b :: post, Sep x y)
    (hsmall : ∀ g ∈ pre, get_size m g < req) (hfit : req ≤ get_size m b) :
    lastD 0 pre = 0 ∨ lastD 0 pre + 24 ≤ b ∨ b + 24 ≤ lastD 0 pre := by
  by_cases hpre : pre = []
  · subst hpre; exact Or.inl rfl
  · have hm : lastD 0 pre ∈ pre := lastD_mem 0 pre hpre
    have hbL : b ∈ pre ++ b :: post := List.mem_append_right _ (List.mem_cons_self _ _)
    rcases hsep _ (List.mem_append_left _ hm) b hbL with h | h
    · have := hsmall _ hm
      rw [h] at this
      omega
    · exact Or.inr h

/-! ## The tail-extension path, field by field -/

theorem malloc_tail (fuel : Nat) (s : State) (req last : Nat) (pre : List Nat)
    (hst : s.start_of_heap ≠ 0)
    (hL : RegList s.mem s.free_start (pre ++ [last]))
    (hsmall : ∀ g ∈ pre ++ [last], get_size s.mem g < req)
    (hfuel : (pre ++ [last]).length < fuel) :
    malloc fuel s req = some (malloc_extend s req last (lastD 0 pre)) := by
  have hne := reglist_ne_zero s.mem _ _ hL
  have hlast : last ≠ 0 := hne last (List.mem_append_right _ (List.mem_singleton_self _))
  have hf : s.free_start ≠ 0 := by
    cases pre with
    | nil => obtain ⟨h1, h2, _⟩ := hL; rw [h1]; exact h2
    | cons g pre => obtain ⟨h1, h2, _⟩ := hL; rw [h1]; exact h2
  have hreq : req ≠ 0 := by
    have := hsmall last (List.mem_append_right _ (List.mem_singleton_self _)); omega
  obtain ⟨pf', hr, hpf⟩ := malloc_search_exhausts req s.mem (pre ++ [last]) fuel s.free_start 0 0
    hL hsmall hfuel
  rw [lastD_append_singleton, hpf pre last rfl] at hr
  simp only [malloc, if_neg hreq, malloc_init_of_ne s hst, if_neg hf, hr,
    Option.map_some', malloc_finish, ne_eq, not_true_eq_false, if_false, hlast,
    not_false_eq_true, if_true]

theorem malloc_extend_facts (s : State) (req last P : Nat)
    (hsmall : get_size s.mem last < req) (h32 : req < 2 ^ 32)
    (h31 : get_size s.mem last < 2 ^ 31)
    (hP : P = 0 ∨ P + 24 ≤ last ∨ last + 24 ≤ P) :
    (malloc_extend s req last P).1.brk = s.brk + (req - get_size s.mem last) ∧
    get_size (malloc_extend s req last P).1.mem last = req ∧
    get_is_used (malloc_extend s req last P).1.mem last = 1 ∧
    (P = 0 → (malloc_extend s req last P).1.free_start = 0) ∧
    (P ≠ 0 → get_next_free (malloc_extend s req last P).1.mem P = 0 ∧
      (malloc_extend s req last P).1.free_start = s.free_start) := by
  have hi := int_as_size_t_small _ h31
  have hinc : (req + (2 ^ 64 - get_size s.mem last)) % 2 ^ 64 = req - get_size s.mem last := by
    omega
  have hsb := sbrk_small { s with mem := set_is_used s.mem last 1 }
    (req - get_size s.mem last) (by omega)
  have hlt := get_size_lt s.mem last
  by_cases hP0 : P = 0
  · subst hP0
    simp only [malloc_extend, get_size_set_is_used, hi, hinc, hsb, ↓reduceIte]
    simp (disch := omega) only [
      get_is_used, get_size, get_next_free, set_is_used, set_size, set_next_free,
      rdLE_wrLE_eq, rdLE_wrLE_disj, Nat.reducePow, Nat.reduceMod, Nat.mod_eq_of_lt,
      Nat.zero_mod, true_and, and_true, forall_true_left, ne_eq, not_true_eq_false,
      IsEmpty.forall_iff]
  · have hP' := hP.resolve_left hP0
    simp only [malloc_extend, get_size_set_is_used, hi, hinc, hsb, hP0, ↓reduceIte]
    simp (disch := omega) only [
      get_is_used, get_size, get_next_free, set_is_used, set_size, set_next_free,
      rdLE_wrLE_eq, rdLE_wrLE_disj, Nat.reducePow, Nat.reduceMod, Nat.mod_eq_of_lt,
      Nat.zero_mod, true_and, and_true, forall_true_left, ne_eq, hP0, not_false_eq_true,
      IsEmpty.forall_iff]

theorem malloc_extend_footprint (s : State) (req last P x : Nat)
    (hl : x < last ∨ last + 5 ≤ x) (hP : x < P + 8 ∨ P + 16 ≤ x) :
    (malloc_extend s req last P).1.mem x = s.mem x := by
  unfold malloc_extend
  simp only [sbrk]
  split_ifs <;>
    simp (disch := omega) only [set_is_used, set_size, set_next_free, wrLE_outside]

theorem malloc_extend_frame (s : State) (req last P a k : Nat)
    (hl : a + k ≤ last ∨ last + 5 ≤ a) (hP : a + k ≤ P + 8 ∨ P + 16 ≤ a) :
    rdLE (malloc_extend s req last P).1.mem a k = rdLE s.mem a k :=
  rdLE_congr _ _ _ _ (fun x h1 h2 => malloc_extend_footprint s req last P x (by omega)
    (by omega))

/-! ## C12: `calloc` -/

theorem memset_inside (m : Mem) (p n i : Nat) (h : i < n) : memset m p 0 n (p + i) = 0 := by
  simp only [memset]
  rw [if_pos (by omega)]

theorem rdLE_memset_disj (m : Mem) (a k p c n : Nat) (h : a + k ≤ p ∨ p + n ≤ a) :
    rdLE (memset m p c n) a k = rdLE m a k := by
  apply rdLE_congr
  intro x h1 h2
  simp only [memset]
  rw [if_neg (by omega)]

theorem calloc_of_malloc (fuel : Nat) (s t : State) (num size p : Nat)
    (h : malloc fuel s (int_as_size_t (num * size % 2 ^ 64)) = some (t, p)) (hp : p ≠ 0) :
    calloc fuel s num size
      = some ({ t with mem := memset t.mem p 0 (int_as_size_t (num * size % 2 ^ 64)) }, p) := by
  simp only [calloc, h, Option.map_some', ne_eq, hp, not_false_eq_true, if_true]

/-- The block that `malloc(n)` hands out in a state whose free list is the list `L` of
headers that pairwise do not overlap: a fresh block when `L` is empty, the first block of
`L` that fits, or the last block of `L`, grown, when that block ends at the break. -/
theorem malloc_block (fuel : Nat) (s : State) (n : Nat) (L : List Nat)
    (hn : 0 < n) (hn31 : n < 2 ^ 31)
    (hemp : L = [] → 0 < s.brk ∧
      (s.start_of_heap ≠ 0 → s.last_meta + sizeof_metadata_t ≤ s.brk))
    (hst : L ≠ [] → s.start_of_heap ≠ 0)
    (hL : RegList s.mem s.free_start L)
    (hsep : ∀ x ∈ L, ∀ y ∈ L, Sep x y)
    (hend : (∀ g ∈ L, get_size s.mem g < n) →
      ∀ q, L.getLast? = some q → q + 24 + get_size s.mem q = s.brk)
    (hfuel : L.length < fuel) :
    ∃ t p, malloc fuel s n = some (t, p) ∧ 24 ≤ p ∧
      (get_size t.mem (p - 24) = n ∨
        (p - 24 ∈ L ∧ get_size t.mem (p - 24) = get_size s.mem (p - 24) ∧
          n ≤ get_size s.mem (p - 24) ∧ get_size s.mem (p - 24) ≤ n + 24)) := by
  by_cases hnil : L = []
  · obtain ⟨hbrk, hlast⟩ := hemp hnil
    subst hnil
    have hreg : s.free_start = 0 := hL
    obtain ⟨_, hl, hb⟩ := malloc_init_wf s hbrk hlast
    have hm := malloc_of_empty fuel s n (by omega) hreg
    have hp := malloc_fresh_snd (malloc_init s) n
    have hs := malloc_fresh_size (malloc_init s) n (by omega) hl
    refine ⟨(malloc_fresh (malloc_init s) n).1, (malloc_init s).brk + 24, ?_, by omega, ?_⟩
    · rw [hm, ← hp]
    · left
      rw [Nat.add_sub_cancel]
      exact hs
  · have hst' := hst hnil
    rcases first_fit_split s.mem n L with hsmall | ⟨pre, b, post, rfl, hsmall, hfit⟩
    · rcases List.eq_nil_or_concat L with h | ⟨pre, last, h⟩
      · exact absurd h hnil
      · rw [List.concat_eq_append] at h
        subst h
        have hm := malloc_tail fuel s n last pre hst' hL hsmall hfuel
        have hne := reglist_ne_zero s.mem _ _ hL
        have hlm : last ∈ pre ++ [last] :=
          List.mem_append_right _ (List.mem_singleton_self _)
        have hq := hend hsmall last (by simp)
        have hls := hsmall last hlm
        have hP : lastD 0 pre = 0 ∨ lastD 0 pre + 24 ≤ last ∨ last + 24 ≤ lastD 0 pre := by
          by_cases hpre : pre = []
          · subst hpre; exact Or.inl rfl
          · right
            have hPm := lastD_mem 0 pre hpre
            rcases hsep _ (List.mem_append_left _ hPm) last hlm with h | h
            · have h1 := reglist_pred s.mem last [] pre s.free_start 0 hL hpre
              have h2 := reglist_last s.mem last pre s.free_start hL
              rw [h, h2] at h1
              exact absurd h1.symm (hne last hlm)
            · exact h
        obtain ⟨_, f2, _, _, _⟩ :=
          malloc_extend_facts s n last (lastD 0 pre) hls (by omega) (by omega) hP
        have hp := malloc_extend_snd s n last (lastD 0 pre)
        refine ⟨(malloc_extend s n last (lastD 0 pre)).1, last + 24, ?_, by omega, ?_⟩
        · rw [hm, ← Prod.eta (malloc_extend s n last (lastD 0 pre)), hp]
          congr 2
          omega
        · left
          rw [Nat.add_sub_cancel]
          exact f2
    · obtain ⟨hm, hb⟩ := malloc_first_fit fuel s n b pre post hst' hL hsmall hfit hn
        (by simp only [List.length_append, List.length_cons] at hfuel; omega)
      have hbL : b ∈ pre ++ b :: post := List.mem_append_right _ (List.mem_cons_self _ _)
      have hP := pred_sep s.mem n b pre post hsep hsmall hfit
      have hp := malloc_take_snd s n b (lastD 0 pre)
      have hsz := malloc_take_size s n b (lastD 0 pre) hfit (by omega)
      refine ⟨(malloc_take s n b (lastD 0 pre)).1, b + 24, ?_, by omega, ?_⟩
      · rw [hm, ← Prod.eta (malloc_take s n b (lastD 0 pre)), hp]
        rfl
      · rw [Nat.add_sub_cancel]
        by_cases h24 : 24 < get_size s.mem b - n
        · left
          rw [hsz, if_pos h24]
        · right
          rw [if_neg h24] at hsz
          exact ⟨hbL, hsz, hfit, by omega⟩

/-- C12 (amended). Zero-fill, for `n = count * elem_size` as the code computes it through
an `int`, with `n > 0`.  In every state, when `calloc(count, elem_size)` returns a non-null
`p`, every one of the `n` bytes from `p` reads as zero.  And in every state where
(a) the free list is the finite list `L` of headers, no two of which overlap,
(b) if `L` is empty, the break is above address 0 and, past the first call, the header
`last_meta` lies below the break; if `L` is not empty, the first call has been made,
(c) if no block of `L` has size `≥ n`, the last block of `L` ends at the break,
the call returns (for fuel beyond the length of `L`) a non-null `p`, and the size stored
in the header of `p` is `n`, or, when a block of `L` whose size exceeds `n` by at most
`sizeof(metadata_t)` was taken without a split, the unchanged size of that block. -/
theorem calloc_zero_fill (fuel : Nat) (s : State) (num size : Nat) (L : List Nat)
    (hn : 0 < int_as_size_t (num * size % 2 ^ 64))
    (hn31 : int_as_size_t (num * size % 2 ^ 64) < 2 ^ 31) :
    (∀ t p, calloc fuel s num size = some (t, p) → p ≠ 0 →
      ∀ i < int_as_size_t (num * size % 2 ^ 64), t.mem (p + i) = 0) ∧
    (RegList s.mem s.free_start L →
      (∀ x ∈ L, ∀ y ∈ L, Sep x y) →
      (L = [] → 0 < s.brk ∧
        (s.start_of_heap ≠ 0 → s.last_meta + sizeof_metadata_t ≤ s.brk)) →
      (L ≠ [] → s.start_of_heap ≠ 0) →
      ((∀ g ∈ L, get_size s.mem g < int_as_size_t (num * size % 2 ^ 64)) →
        ∀ q, L.getLast? = some q → q + sizeof_metadata_t + get_size s.mem q = s.brk) →
      L.length < fuel →
      ∃ t p, calloc fuel s num size = some (t, p) ∧ p ≠ 0 ∧
        (get_size t.mem (p - sizeof_metadata_t) = int_as_size_t (num * size % 2 ^ 64) ∨
          (p - sizeof_metadata_t ∈ L ∧
            get_size t.mem (p - sizeof_metadata_t) = get_size s.mem (p - sizeof_metadata_t) ∧
            int_as_size_t (num * size % 2 ^ 64) ≤ get_size s.mem (p - sizeof_metadata_t) ∧
            get_size s.mem (p - sizeof_metadata_t)
              ≤ int_as_size_t (num * size % 2 ^ 64) + sizeof_metadata_t))) := by
  constructor
  · intro t p hc hp i hi
    simp only [calloc, Option.map_eq_some'] at hc
    obtain ⟨r, _, hr⟩ := hc
    by_cases hr2 : r.2 ≠ 0
    · rw [if_pos hr2] at hr
      have h1 := congrArg Prod.fst hr
      have h2 := congrArg Prod.snd hr
      simp only at h1 h2
      rw [← h1, ← h2]
      exact memset_inside _ _ _ _ hi
    · rw [if_neg hr2] at hr
      have h2 := congrArg Prod.snd hr
      simp only at h2
      exact absurd (h2 ▸ not_not.mp hr2) hp
  · intro hL hsep hemp hst hend hfuel
    obtain ⟨t, p, hm, hp24, hsz⟩ := malloc_block fuel s _ L hn hn31 hemp hst hL hsep hend
      hfuel
    have hp : p ≠ 0 := by omega
    have hc := calloc_of_malloc fuel s t num size p hm hp
    have hkeep : get_size (memset t.mem p 0 (int_as_size_t (num * size % 2 ^ 64))) (p - 24)
        = get_size t.mem (p - 24) := rdLE_memset_disj _ _ _ _ _ _ (by omega)
    refine ⟨_, p, hc, hp, ?_⟩
    simp only [sizeof_metadata_t]
    rw [hkeep]
    exact hsz

/-- Witness of `calloc_zero_fill`: `calloc(10, 4)` in `example_state2`, whose free list is
the blocks 4120 (size 16) and 4200 (size 100); the second one fits and is split. -/
theorem calloc_zero_fill_witness :
    0 < int_as_size_t (10 * 4 % 2 ^ 64) ∧ int_as_size_t (10 * 4 % 2 ^ 64) < 2 ^ 31 ∧
    RegList example_state2.mem example_state2.free_start [4120, 4200] ∧
    (∀ x ∈ [4120, 4200], ∀ y ∈ [4120, 4200], Sep x y) ∧
    example_state2.start_of_heap ≠ 0 ∧
    ∃ t p, calloc 9 example_state2 10 4 = some (t, p) ∧ p ≠ 0 ∧
      (∀ i < int_as_size_t (10 * 4 % 2 ^ 64), t.mem (p + i) = 0) ∧
      (get_size t.mem (p - sizeof_metadata_t) = int_as_size_t (10 * 4 % 2 ^ 64) ∨
        (p - sizeof_metadata_t ∈ [4120, 4200] ∧
          get_size t.mem (p - sizeof_metadata_t)
            = get_size example_state2.mem (p - sizeof_metadata_t) ∧
          int_as_size_t (10 * 4 % 2 ^ 64)
            ≤ get_size example_state2.mem (p - sizeof_metadata_t) ∧
          get_size example_state2.mem (p - sizeof_metadata_t)
            ≤ int_as_size_t (10 * 4 % 2 ^ 64) + sizeof_metadata_t)) :=
  ⟨by decide, by decide, by decide!, by simp only [Sep]; decide, by decide!,
    ((calloc_zero_fill 9 example_state2 10 4 [4120, 4200] (by decide) (by decide)).2
      (by decide!) (by simp only [Sep]; decide) (fun h => absurd h (by decide))
      (fun _ => by decide!) (fun h => absurd (h 4200 (by decide)) (by decide!))
      (by decide)).imp fun t ht => ht.imp fun p hp =>
        ⟨hp.1, hp.2.1,
          (calloc_zero_fill 9 example_state2 10 4 [4120, 4200] (by decide) (by decide)).1
            t p hp.1 hp.2.1, hp.2.2⟩⟩

set_option synthInstance.maxSize 1000 in
/-- C12 (counterexample to the claim as stated). On a fresh heap, `p = malloc(16)`,
`free(p)`, `q = calloc(2, 4)`: the free block of size 16 is taken without a split, so the
call returns `q = p`, the 8 bytes from `q` read as zero, and the size stored in the header
of `q` is 16, not `2 * 4`. -/
theorem calloc_keeps_larger_size :
    (do
      let (s, p) ← malloc 9 (init 4096) 16
      let s ← free 9 s p
      let (t, q) ← calloc 9 s 2 4
      pure (p, q, get_size t.mem (q - sizeof_metadata_t),
        decide (get_size t.mem (q - sizeof_metadata_t) = 2 * 4),
        (List.range (2 * 4)).map fun i => t.mem (q + i)))
    = some (4144, 4144, 16, false, [0, 0, 0, 0, 0, 0, 0, 0]) := by
  decide!

/-! ## C13, C14: aliasing and a cycle in the free list -/

set_option synthInstance.maxSize 1000 in
/-- C13 (the code fails the claim). On a fresh heap, `p = malloc(16)`, `free(p)`,
`q = malloc(16)`, `r = malloc(16)`: the second `malloc` takes the block of `p` without a
split and leaves `free_start` pointing at it, so the third `malloc` finds the same block
again and returns `r = q`, while `q` has not been released (the header 4120 is in use
before and after the third call, and the break does not move). -/
theorem live_pointer_returned_twice :
    (do
      let (s, p) ← malloc 9 (init 4096) 16
      let s ← free 9 s p
      let (s, q) ← malloc 9 s 16
      let (t, r) ← malloc 9 s 16
      pure (p, q, r, decide (q = r), get_is_used s.mem (q - 24), get_is_used t.mem (r - 24),
        s.free_start, s.brk, t.brk))
    = some (4144, 4144, 4144, true, 1, 1, 4120, 4160, 4160) := by
  decide!

/-- C14 (the code fails the claim). The state after `A = malloc(16); B = malloc(16);
C = malloc(16); free(A); free(C); free(B); malloc(16)` on a fresh heap has the free list
head 4160, a free block of size 16 whose `next_free` is 4160 itself.  In that state the
first-fit loop of `malloc(100)` never ends: for every fuel the call runs out of fuel, and
so does the walk of `print_free`. -/
theorem registry_self_loop :
    example_state3.free_start = 4160 ∧
    get_next_free example_state3.mem 4160 = 4160 ∧
    get_size example_state3.mem 4160 = 16 ∧
    get_is_used example_state3.mem 4160 = 0 ∧
    (∀ fuel, malloc fuel example_state3 100 = none) ∧
    print_free 9 example_state3 = none := by
  have h1 : example_state3.free_start = 4160 := by decide!
  have h2 : get_next_free example_state3.mem 4160 = 4160 := by decide!
  have h3 : get_size example_state3.mem 4160 = 16 := by decide!
  have h4 : example_state3.start_of_heap ≠ 0 := by decide!
  refine ⟨h1, h2, h3, by decide!, ?_, by decide!⟩
  intro fuel
  have hs := malloc_search_cycle 100 example_state3.mem 4160 (by decide) (by omega) h2 fuel 0 0
  simp only [malloc, malloc_init_of_ne _ h4, h1, hs, Option.map_none', OfNat.ofNat_ne_zero,
    ↓reduceIte]

/-! ## C15 - C17: first fit, no split, split -/

/-- First-fit selection on disjoint blocks: in an initialised state whose free list is the
finite list `pre ++ b :: post` of pairwise disjoint blocks, where every block of `pre` is smaller than
`req > 0` and `b` is not, `malloc(req)` returns (fuel beyond the length of `pre`)
`b + sizeof(metadata_t)`, `b` is in use afterwards, the break has not moved, and every
block of `pre` keeps its `size`, `is_used` and `next`, and also its `next_free` unless that
link pointed at `b`. -/
theorem first_fit_selection (fuel : Nat) (s : State) (req b : Nat) (pre post : List Nat)
    (hst : s.start_of_heap ≠ 0) (hreq : 0 < req)
    (hL : RegList s.mem s.free_start (pre ++ b :: post))
    (hdisj : ∀ x ∈ pre ++ b :: post, ∀ y ∈ pre ++ b :: post,
      x = y ∨ x + 24 + get_size s.mem x ≤ y ∨ y + 24 + get_size s.mem y ≤ x)
    (hsmall : ∀ g ∈ pre, get_size s.mem g < req) (hfit : req ≤ get_size s.mem b)
    (hfuel : pre.length < fuel) :
    ∃ t, malloc fuel s req = some (t, b + sizeof_metadata_t) ∧
      get_is_used t.mem b = 1 ∧ t.brk = s.brk ∧
      ∀ g ∈ pre, get_size t.mem g = get_size s.mem g ∧
        get_is_used t.mem g = get_is_used s.mem g ∧
        get_next t.mem g = get_next s.mem g ∧
        (get_next_free s.mem g ≠ b → get_next_free t.mem g = get_next_free s.mem g) := by
  obtain ⟨hm, _⟩ := malloc_first_fit fuel s req b pre post hst hL hsmall hfit hreq hfuel
  have hbL : b ∈ pre ++ b :: post := List.mem_append_right _ (List.mem_cons_self _ _)
  have hapart : ∀ g ∈ pre, g + 24 + get_size s.mem g ≤ b ∨ b + 24 + get_size s.mem b ≤ g := by
    intro g hg
    rcases hdisj g (List.mem_append_left _ hg) b hbL with h | h
    · have := hsmall g hg
      rw [h] at this
      omega
    · exact h
  have hP : lastD 0 pre = 0 ∨ lastD 0 pre + 24 ≤ b ∨ b + 24 ≤ lastD 0 pre := by
    cases hpre : pre with
    | nil => exact Or.inl rfl
    | cons g pre' =>
      have := hapart _ (lastD_mem 0 pre (by rw [hpre]; simp))
      rw [hpre] at this
      right
      omega
  refine ⟨(malloc_take s req b (lastD 0 pre)).1, ?_, malloc_take_used s req b _ hP,
    malloc_take_brk s req b _, ?_⟩
  · rw [hm, ← malloc_take_snd s req b (lastD 0 pre)]
  · intro g hg
    have hne : pre ≠ [] := List.ne_nil_of_mem hg
    have hPm : lastD 0 pre ∈ pre := lastD_mem 0 pre hne
    have hgb := hapart g hg
    have hgP : g = lastD 0 pre ∨ g + 24 + get_size s.mem g ≤ lastD 0 pre ∨
        lastD 0 pre + 24 + get_size s.mem (lastD 0 pre) ≤ g :=
      hdisj g (List.mem_append_left _ hg) _ (List.mem_append_left _ hPm)
    refine ⟨?_, ?_, ?_, ?_⟩
    · exact malloc_take_frame s req b _ g 4 (by omega) (fun h => by omega) (by omega)
    · exact malloc_take_frame s req b _ (g + 4) 1 (by omega) (fun h => by omega) (by omega)
    · exact malloc_take_frame s req b _ (g + 16) 8 (by omega) (fun h => by omega) (by omega)
    · intro hnb
      have hgne : g ≠ lastD 0 pre := by
        intro h
        rw [h] at hnb
        exact hnb (reglist_pred s.mem b post pre _ 0 hL hne)
      have := hgP.resolve_left hgne
      exact malloc_take_frame s req b _ (g + 8) 8 (by omega) (fun h => by omega) (by omega)

/-- Witness of `first_fit_selection`: `malloc(40)` in `example_state2` passes the block
4120 of size 16 and takes the block 4200 of size 100. -/
theorem first_fit_selection_witness :
    example_state2.start_of_heap ≠ 0 ∧ 0 < 40 ∧
    RegList example_state2.mem example_state2.free_start ([4120] ++ 4200 :: []) ∧
    (∀ g ∈ [4120], get_size example_state2.mem g < 40) ∧
    40 ≤ get_size example_state2.mem 4200 ∧
    ∃ t, malloc 9 example_state2 40 = some (t, 4200 + sizeof_metadata_t) ∧
      get_is_used t.mem 4200 = 1 ∧ t.brk = example_state2.brk ∧
      ∀ g ∈ [4120], get_size t.mem g = get_size example_state2.mem g ∧
        get_is_used t.mem g = get_is_used example_state2.mem g ∧
        get_next t.mem g = get_next example_state2.mem g ∧
        (get_next_free example_state2.mem g ≠ 4200 →
          get_next_free t.mem g = get_next_free example_state2.mem g) :=
  ⟨by decide!, by decide, by decide!, by decide!, by decide!,
    first_fit_selection 9 example_state2 40 4200 [4120] [] (by decide!) (by decide)
      (by decide!) (by decide!) (by decide!) (by decide!) (by decide)⟩

set_option synthInstance.maxSize 2000 in
/-- C15 (the code fails the claim). On a fresh heap, `a = malloc(1)`, `b = malloc(56)`,
`free(a)`, `free(b)`, `malloc(56)`: `free(b)` merges `b` into `a` and then links the
merged-away header 4145 into the free list (line 243), and `malloc(56)` splits the merged
block, so the free list is the finite list 4200 (size 1), 4145 (size 56).  `malloc(16)`
passes 4200 and takes 4145, the first block that fits, and returns `4145 + 24`; the split
writes the header of the remainder at 4185, over the first byte of the header 4200:
the `size` of the block 4200, which precedes 4145 on the free list, changes from 1
to 0. -/
theorem first_fit_overwrites_earlier_block :
    (do
      let (s, a) ← malloc 9 (init 4096) 1
      let (s, b) ← malloc 9 s 56
      let s ← free 9 s a
      let s ← free 9 s b
      let (s, _) ← malloc 9 s 56
      let (t, q) ← malloc 9 s 16
      pure ([q, get_size s.mem 4200, get_size t.mem 4200, s.brk, t.brk],
        [print_free 9 s, print_free 9 t]))
    = some ([4169, 1, 0, 4225, 4225],
        [some [(4200, 1, 0), (4145, 56, 0)], some [(4200, 0, 0), (4185, 16, 0)]]) := by
  decide!

set_option synthInstance.maxSize 1000 in
/-- C16 (the code fails the claim). On a fresh heap, `A`, `B`, `C`, `D = malloc(16)`, then
`free(A)`, `free(C)`: the free list is `A`, `C`.  The call `malloc(16)` finds `A`, the
head, with surplus 0: `A` is marked in use with its size unchanged, but `free_start` is
not moved (line 160 only handles `prev`) and `A->next_free` is set to `NULL`, so
afterwards `A` is still reachable from the head and its former successor `C`, still free,
is not. -/
theorem nosplit_head_stays_linked :
    (do
      let (s, a) ← malloc 9 (init 4096) 16
      let (s, _) ← malloc 9 s 16
      let (s, c) ← malloc 9 s 16
      let (s, _) ← malloc 9 s 16
      let s ← free 9 s a
      let s ← free 9 s c
      let (t, q) ← malloc 9 s 16
      pure ([a, c, q, t.free_start, get_is_used t.mem 4200],
        [print_free 9 s, print_free 9 t]))
    = some ([4144, 4224, 4144, 4120, 0],
        [some [(4120, 16, 0), (4200, 16, 0)], some [(4120, 16, 1)]]) := by
  decide!

/-- Split policy on disjoint blocks: in an initialised state whose free list is the finite
list `pre ++ b :: post` of pairwise disjoint blocks, where every block of `pre` is smaller than
`req > 0` and `b` has size `s ≥ req`: if `s - req > sizeof(metadata_t)`, then after
`malloc(req)` (1) `b` is in use, has size `req` and `next_free = NULL`, (2) the header at
`r = b + sizeof(metadata_t) + req` is free with size `s - req - sizeof(metadata_t)`,
(3) `b.next = r` and `r.next` is the old `b.next`, (4) `r.next_free` is the old
`b.next_free`, and `free_start` (when `pre` is empty) or the last block of `pre` points at
`r`; if `s - req = sizeof(metadata_t)`, `b` keeps its size and its `next`. -/
theorem split_policy (fuel : Nat) (s : State) (req b : Nat) (pre post : List Nat)
    (hst : s.start_of_heap ≠ 0) (hreq : 0 < req)
    (hL : RegList s.mem s.free_start (pre ++ b :: post))
    (hdisj : ∀ x ∈ pre ++ b :: post, ∀ y ∈ pre ++ b :: post,
      x = y ∨ x + 24 + get_size s.mem x ≤ y ∨ y + 24 + get_size s.mem y ≤ x)
    (hsmall : ∀ g ∈ pre, get_size s.mem g < req) (hfit : req ≤ get_size s.mem b)
    (h64 : b + sizeof_metadata_t + req < 2 ^ 64) (hfuel : pre.length < fuel) :
    ∃ t, malloc fuel s req = some (t, b + sizeof_metadata_t) ∧
      (sizeof_metadata_t < get_size s.mem b - req →
        (get_is_used t.mem b = 1 ∧ get_size t.mem b = req ∧ get_next_free t.mem b = 0) ∧
        (get_is_used t.mem (b + sizeof_metadata_t + req) = 0 ∧
          get_size t.mem (b + sizeof_metadata_t + req)
            = get_size s.mem b - req - sizeof_metadata_t ∧
          req + sizeof_metadata_t + get_size t.mem (b + sizeof_metadata_t + req)
            = get_size s.mem b) ∧
        (get_next t.mem b = b + sizeof_metadata_t + req ∧
          get_next t.mem (b + sizeof_metadata_t + req) = get_next s.mem b) ∧
        (get_next_free t.mem (b + sizeof_metadata_t + req) = get_next_free s.mem b ∧
          (pre = [] → t.free_start = b + sizeof_metadata_t + req) ∧
          (∀ q, pre.getLast? = some q →
            get_next_free t.mem q = b + sizeof_metadata_t + req))) ∧
      (get_size s.mem b - req = sizeof_metadata_t →
        get_is_used t.mem b = 1 ∧ get_size t.mem b = get_size s.mem b ∧
        get_next t.mem b = get_next s.mem b) := by
  obtain ⟨hm, _⟩ := malloc_first_fit fuel s req b pre post hst hL hsmall hfit hreq hfuel
  have hP := pred_apart s req b pre post hdisj hsmall hfit
  simp only [sizeof_metadata_t] at h64 ⊢
  refine ⟨(malloc_take s req b (lastD 0 pre)).1, ?_, ?_, ?_⟩
  · have h2 := malloc_take_snd s req b (lastD 0 pre)
    simp only [sizeof_metadata_t] at h2
    rw [hm, ← h2]
  · intro h24
    obtain ⟨f1, f2, f3, f4, f5, f6, f7, f8, f9, f10⟩ :=
      malloc_take_split s req b (lastD 0 pre) hfit h24 hP h64
    refine ⟨⟨f1, f2, f3⟩, ⟨f5, f6, by rw [f6]; omega⟩, ⟨f4, f7⟩, f8, ?_, ?_⟩
    · intro hpre
      exact f9 (by rw [hpre]; rfl)
    · intro q hq
      have hqe := lastD_of_getLast 0 q pre hq
      have hqm : q ∈ pre := List.mem_of_mem_getLast? hq
      have hq0 : q ≠ 0 := reglist_ne_zero s.mem _ _ hL q (List.mem_append_left _ hqm)
      rw [← hqe]
      exact (f10 (by rw [hqe]; exact hq0)).1
  · intro h24
    obtain ⟨f1, f2, f3, _⟩ := malloc_take_nosplit s req b (lastD 0 pre) (by omega)
      (by rcases hP with h | h | h
          · exact Or.inl h
          · exact Or.inr (Or.inl h)
          · exact Or.inr (Or.inr (by omega)))
    exact ⟨f1, f2, f3⟩

/-- Witness of `split_policy`: `malloc(40)` in `example_state2` splits the block 4200 of
size 100; the remainder is the header 4264 of size 36, and the block 4120 before it on the
free list now points at it. -/
theorem split_policy_witness :
    example_state2.start_of_heap ≠ 0 ∧ 0 < 40 ∧
    RegList example_state2.mem example_state2.free_start ([4120] ++ 4200 :: []) ∧
    (∀ g ∈ [4120], get_size example_state2.mem g < 40) ∧
    40 ≤ get_size example_state2.mem 4200 ∧
    sizeof_metadata_t < get_size example_state2.mem 4200 - 40 ∧
    ∃ t, malloc 9 example_state2 40 = some (t, 4200 + sizeof_metadata_t) ∧
      get_size t.mem 4200 = 40 ∧
      get_size t.mem (4200 + sizeof_metadata_t + 40)
        = get_size example_state2.mem 4200 - 40 - sizeof_metadata_t ∧
      get_next_free t.mem 4120 = 4200 + sizeof_metadata_t + 40 :=
  ⟨by decide!, by decide, by decide!, by decide!, by decide!, by decide!,
    (split_policy 9 example_state2 40 4200 [4120] [] (by decide!) (by decide) (by decide!)
      (by decide!) (by decide!) (by decide!) (by decide) (by decide)).imp
      fun _ h => ⟨h.1, ((h.2.1 (by decide!)).1).2.1, ((h.2.1 (by decide!)).2.1).2.1,
        ((h.2.1 (by decide!)).2.2.2).2.2 4120 rfl⟩⟩

set_option synthInstance.maxSize 2000 in
/-- C17 (the code fails the claim). In the state after `a = malloc(1)`, `b = malloc(56)`,
`free(a)`, `free(b)`, `malloc(56)` on a fresh heap, the free list is 4200 (size 1),
4145 (size 56).  `malloc(16)` finds `b = 4145` with `56 - 16 > 24` and splits it: the
remainder `r` is at `4145 + 24 + 16 = 4185` with size `56 - 16 - 24 = 16`, and the
predecessor 4200 points at `r`.  But line 155 stores that link at 4208, the last byte of
`r->next`: after the call `r->next` is `89 * 2^56` and not the old `b->next`, which
is `NULL`. -/
theorem split_remainder_next_overwritten :
    (do
      let (s, a) ← malloc 9 (init 4096) 1
      let (s, b) ← malloc 9 s 56
      let s ← free 9 s a
      let s ← free 9 s b
      let (s, _) ← malloc 9 s 56
      let (t, q) ← malloc 9 s 16
      pure ([q, get_size s.mem 4145, get_size t.mem 4145, get_size t.mem 4185,
        get_next_free t.mem 4200, get_next s.mem 4145, get_next t.mem 4185],
        decide (get_next t.mem 4185 = get_next s.mem 4145)))
    = some ([4169, 56, 16, 16, 4185, 0, 89 * 2 ^ 56], false) := by
  decide!

/-! ## C18 - C20: release, the fresh block, tail extension -/

set_option synthInstance.maxSize 1000 in
/-- C18 (the code fails the claim). On a fresh heap, `A`, `B`, `C`, `D = malloc(16)`, then
`free(C)`, `free(A)`: before `free(A)` the free list is `C`, and the chain has exactly
that one free block.  `free(A)` meets no free block before `A` in the chain, so it stores
`free_start = A` (line 241) and `A->next_free` stays `NULL`: afterwards the free list is
`A` alone, and `C`, which is still free and was not merged, is no longer on it. -/
theorem release_drops_registry_entry :
    (do
      let (s, a) ← malloc 9 (init 4096) 16
      let (s, _) ← malloc 9 s 16
      let (s, c) ← malloc 9 s 16
      let (s, _) ← malloc 9 s 16
      let s ← free 9 s c
      let t ← free 9 s a
      pure ([a, c], [print_next 9 s, print_free 9 s, print_next 9 t, print_free 9 t]))
    = some ([4144, 4224],
        [some [(4096, 0, 1), (4120, 16, 1), (4160, 16, 1), (4200, 16, 0), (4240, 16, 1)],
         some [(4200, 16, 0)],
         some [(4096, 0, 1), (4120, 16, 0), (4160, 16, 1), (4200, 16, 0), (4240, 16, 1)],
         some [(4120, 16, 0)]]) := by
  decide!

set_option synthInstance.maxSize 1000 in
/-- C19 (the code fails the claim). On a fresh heap, `a = malloc(100)`, `free(a)`,
`malloc(10)`, `malloc(200)`, `malloc(8)`: the split of the second call leaves `last_meta`
at the header 4120 although the remainder 4154 is now the last block, and the third call
grows that remainder.  The last call runs with an empty free list: it moves the break by
`24 + 8`, writes an in-use header of size 8 at the old break 4378 and returns 4402, but it
links the new header after `last_meta = 4120`, so the block 4154, which was on the `next`
chain before the call, is not on it afterwards. -/
theorem fresh_block_unlinks_split_remainder :
    (do
      let (s, a) ← malloc 9 (init 4096) 100
      let s ← free 9 s a
      let (s, _) ← malloc 9 s 10
      let (s, _) ← malloc 9 s 200
      let (t, d) ← malloc 9 s 8
      pure ([s.free_start, s.last_meta, s.brk, t.brk, d, get_size t.mem s.brk,
        get_is_used t.mem s.brk], [print_next 9 s, print_next 9 t]))
    = some ([0, 4120, 4378, 4410, 4402, 8, 1],
        [some [(4096, 0, 1), (4120, 10, 1), (4154, 200, 1)],
         some [(4096, 0, 1), (4120, 10, 1), (4378, 8, 1)]]) := by
  decide!

/-- C20 (amended). Tail extension: in a state past the first call whose free list is the
list `pre ++ [last]` of headers that lie pairwise apart, when every block of the list is
smaller than `req`, `req < 2^32` and `last.size < 2^31`, the call `malloc(req)` returns
(for fuel beyond the length of the list), the break moves forward by exactly
`req - last.size`, `last` is in use with size `req`, the free list is `pre` afterwards
(empty when `last` was its only entry, and otherwise the `next_free` of the predecessor of
`last` is null), and every block of `pre` keeps its `size`, `is_used` and `next`, and its
`next_free` too unless it is that predecessor. -/
theorem tail_extension (fuel : Nat) (s : State) (req last : Nat) (pre : List Nat)
    (hst : s.start_of_heap ≠ 0)
    (hL : RegList s.mem s.free_start (pre ++ [last]))
    (hsep : (pre ++ [last]).Pairwise (fun x y => x + 24 ≤ y ∨ y + 24 ≤ x))
    (hsmall : ∀ g ∈ pre ++ [last], get_size s.mem g < req)
    (h32 : req < 2 ^ 32) (h31 : get_size s.mem last < 2 ^ 31)
    (hfuel : (pre ++ [last]).length < fuel) :
    ∃ t p, malloc fuel s req = some (t, p) ∧
      t.brk = s.brk + (req - get_size s.mem last) ∧
      get_size t.mem last = req ∧ get_is_used t.mem last = 1 ∧
      RegList t.mem t.free_start pre ∧
      (pre = [] → t.free_start = 0) ∧
      (∀ q, pre.getLast? = some q → get_next_free t.mem q = 0) ∧
      ∀ g ∈ pre, get_size t.mem g = get_size s.mem g ∧
        get_is_used t.mem g = get_is_used s.mem g ∧
        get_next t.mem g = get_next s.mem g ∧
        (pre.getLast? ≠ some g → get_next_free t.mem g = get_next_free s.mem g) := by
  have hm := malloc_tail fuel s req last pre hst hL hsmall hfuel
  have hne := reglist_ne_zero s.mem _ _ hL
  have hlastmem : last ∈ pre ++ [last] := List.mem_append_right _ (List.mem_singleton_self _)
  have hsep' := List.pairwise_append.mp hsep
  have hapart : ∀ g ∈ pre, g + 24 ≤ last ∨ last + 24 ≤ g :=
    fun g hg => hsep'.2.2 g hg last (List.mem_singleton_self _)
  have hP : lastD 0 pre = 0 ∨ lastD 0 pre + 24 ≤ last ∨ last + 24 ≤ lastD 0 pre := by
    by_cases hpre : pre = []
    · subst hpre; exact Or.inl rfl
    · exact Or.inr (hapart _ (lastD_mem 0 pre hpre))
  obtain ⟨f1, f2, f3, f4, f5⟩ :=
    malloc_extend_facts s req last (lastD 0 pre) (hsmall last hlastmem) h32 h31 hP
  have hPne : pre ≠ [] → lastD 0 pre ≠ 0 :=
    fun hpre => hne _ (List.mem_append_left _ (lastD_mem 0 pre hpre))
  have hgP : ∀ g ∈ pre, g ≠ lastD 0 pre →
      g + 24 ≤ lastD 0 pre ∨ lastD 0 pre + 24 ≤ g := by
    intro g hg hgne
    have hpre : pre ≠ [] := List.ne_nil_of_mem hg
    exact hsep'.1.forall (fun x y h => h.symm) hg (lastD_mem 0 pre hpre) hgne
  have hframe : ∀ g ∈ pre, ∀ a k, g ≤ a → a + k ≤ g + 24 →
      (g = lastD 0 pre → a + k ≤ g + 8 ∨ g + 16 ≤ a) →
      rdLE (malloc_extend s req last (lastD 0 pre)).1.mem a k = rdLE s.mem a k := by
    intro g hg a k h1 h2 h3
    have hgl := hapart g hg
    apply malloc_extend_frame
    · omega
    · by_cases hgl : g = lastD 0 pre
      · have := h3 hgl
        omega
      · have := hgP g hg hgl
        omega
  have hkeep : ∀ g ∈ pre, g ≠ lastD 0 pre →
      get_next_free (malloc_extend s req last (lastD 0 pre)).1.mem g = get_next_free s.mem g :=
    fun g hg hgne => hframe g hg _ _ (by omega) (by omega) (fun h => absurd h hgne)
  have hreg := reglist_drop_last s.mem (malloc_extend s req last (lastD 0 pre)).1.mem last pre
    s.free_start hL (hsep.imp (fun h => by omega)) hkeep (fun hpre => (f5 (hPne hpre)).1)
  have hfs : (malloc_extend s req last (lastD 0 pre)).1.free_start
      = if pre = [] then 0 else s.free_start := by
    by_cases hpre : pre = []
    · rw [if_pos hpre]
      apply f4
      rw [hpre]
      rfl
    · rw [if_neg hpre]
      exact (f5 (hPne hpre)).2
  have hm' : malloc fuel s req = some ((malloc_extend s req last (lastD 0 pre)).1,
      (malloc_extend s req last (lastD 0 pre)).2) := hm
  refine ⟨(malloc_extend s req last (lastD 0 pre)).1, (malloc_extend s req last (lastD 0 pre)).2,
    hm', f1, f2, f3, ?_, ?_, ?_, ?_⟩
  · rw [hfs]
    exact hreg
  · intro hpre
    rw [hfs, if_pos hpre]
  · intro q hq
    have hpre : pre ≠ [] := by
      intro h
      rw [h] at hq
      exact absurd hq (by simp)
    rw [← lastD_of_getLast 0 q pre hq]
    exact (f5 (hPne hpre)).1
  · intro g hg
    refine ⟨hframe g hg _ _ (by omega) (by omega) (fun _ => by omega),
      hframe g hg _ _ (by omega) (by omega) (fun _ => by omega),
      hframe g hg _ _ (by omega) (by omega) (fun _ => by omega), ?_⟩
    intro hq
    apply hkeep g hg
    intro hgl
    apply hq
    rw [hgl]
    exact getLast_lastD 0 pre (List.ne_nil_of_mem hg)

/-- Witness of `tail_extension`: `malloc(200)` in `example_state2`, where the free blocks
have sizes 16 and 100, grows the block 4200 by 100 bytes and leaves the block 4120 alone
on the free list. -/
theorem tail_extension_witness :
    example_state2.start_of_heap ≠ 0 ∧
    RegList example_state2.mem example_state2.free_start ([4120] ++ [4200]) ∧
    (∀ g ∈ [4120] ++ [4200], get_size example_state2.mem g < 200) ∧
    200 < 2 ^ 32 ∧ get_size example_state2.mem 4200 < 2 ^ 31 ∧
    ∃ t p, malloc 9 example_state2 200 = some (t, p) ∧
      t.brk = example_state2.brk + (200 - get_size example_state2.mem 4200) ∧
      get_size t.mem 4200 = 200 ∧ get_is_used t.mem 4200 = 1 ∧
      RegList t.mem t.free_start [4120] ∧
      ([4120] = [] → t.free_start = 0) ∧
      (∀ q, [4120].getLast? = some q → get_next_free t.mem q = 0) ∧
      ∀ g ∈ [4120], get_size t.mem g = get_size example_state2.mem g ∧
        get_is_used t.mem g = get_is_used example_state2.mem g ∧
        get_next t.mem g = get_next example_state2.mem g ∧
        ([4120].getLast? ≠ some g →
          get_next_free t.mem g = get_next_free example_state2.mem g) :=
  ⟨by decide!, by decide!, by decide!, by decide, by decide!,
    tail_extension 9 example_state2 200 4200 [4120] (by decide!) (by decide!) (by decide)
      (by decide!) (by decide) (by decide!) (by decide)⟩

set_option synthInstance.maxSize 1000 in
/-- C20 (counterexample to the claim as stated). On a fresh heap, `p = malloc(16)`,
`free(p)`, `malloc(2^32 + 100)`: the free list is the block 4120 alone, of size 16, so no
block has `size ≥ requested` and that block is grown; the break moves by
`requested - 16`, but the `unsigned int` field `size` receives `requested` modulo `2^32`,
that is 100 and not `requested`. -/
theorem tail_extension_truncates_size :
    (do
      let (s, p) ← malloc 9 (init 4096) 16
      let s ← free 9 s p
      let (t, _) ← malloc 9 s 4294967396
      pure ([get_size s.mem 4120, get_size t.mem 4120, t.brk - s.brk],
        print_free 9 s, decide (get_size t.mem 4120 = 4294967396)))
    = some ([16, 100, 4294967396 - 16], some [(4120, 16, 0)], false) := by
  decide!

end Malloc
